import Mathlib

set_option maxHeartbeats 1000000

/-!
Verification of the campus POI extraction pipeline of
`Backend/scripts/extract_campus_pois_final.py` (repository UTM-Move).

Conventions of the shallow embedding:
* Python floats are modelled as exact rationals (`ℚ`); the geometric claims
  are settled in exact arithmetic.
* Python dictionaries of OSM tags are modelled as association lists
  `List (String × String)`; `tags.get(k, "")` becomes a first-match lookup
  with default `""`, and Python truthiness of a string is `≠ ""`.
* `str.lower` is modelled character-wise with `Char.toLower` (the names the
  script compares are ASCII), and Python's substring test `x in s` as an
  infix test on the character lists.
* `list(set(xs))` is modelled as `List.dedup`: Python's iteration order over
  a set is unspecified, and every claim below only uses the result with set
  semantics (membership / set equality).
* The local variable `xinters` of `point_in_polygon`, which Python keeps
  across loop iterations and which may be unbound on first use, is modelled
  explicitly as an `Option ℚ` threaded through the loop, together with flags
  recording whether a comparison ever read an unset or stale value.
-/

namespace UTMMove

/-- A planar point `(x, y)`; the script uses `(lon, lat)` order. -/
abbrev Pt : Type := ℚ × ℚ

/-- 2-d cross product of two vectors, `u.x * v.y - u.y * v.x`.  Used to state
convexity and sidedness for the geometric claims. -/
def cross (u v : Pt) : ℚ := u.1 * v.2 - u.2 * v.1

/-- Loop state of `point_in_polygon`.  `xinters` is the Python local variable
of the same name (`none` = not yet assigned); `inside` is the parity flag.
`staleEval` records that some evaluation of `x <= xinters` read a value that
was assigned in an *earlier* iteration (not recomputed for the current edge);
`unsetEval` records that some evaluation read `xinters` before any assignment
(which in Python would raise `UnboundLocalError`). -/
structure PipSt where
  xinters : Option ℚ
  inside : Bool
  staleEval : Bool
  unsetEval : Bool

/-- One iteration of the `point_in_polygon` loop body, for the edge
`(p1, p2)`; a direct transcription of the nested `if`s of the script,
including the conditional assignment of `xinters` and the short-circuit
`p1x == p2x or x <= xinters` (the right operand is only evaluated when
`p1x != p2x`, and only then can a stale/unset read happen). -/
def pipStep (x y : ℚ) (p1 p2 : Pt) (st : PipSt) : PipSt :=
  if y > min p1.2 p2.2 then
    if y ≤ max p1.2 p2.2 then
      if x ≤ max p1.1 p2.1 then
        let xi : Option ℚ :=
          if p1.2 ≠ p2.2 then
            some ((y - p1.2) * (p2.1 - p1.1) / (p2.2 - p1.2) + p1.1)
          else st.xinters
        if p1.1 = p2.1 then
          { st with xinters := xi, inside := !st.inside }
        else
          match xi with
          | none => { st with xinters := none, unsetEval := true }
          | some v =>
            if x ≤ v then
              { xinters := xi, inside := !st.inside, staleEval := st.staleEval || decide (p1.2 = p2.2), unsetEval := st.unsetEval }
            else
              { st with xinters := xi, staleEval := st.staleEval || decide (p1.2 = p2.2) }
      else st
    else st
  else st

/-- The loop of `point_in_polygon`: Python iterates `i = 1 .. n` with
`p2 = polygon[i % n]` while carrying `p1` along; here the successive `p2`
values are passed as a list. -/
def pipWalk (x y : ℚ) : List Pt → Pt → PipSt → PipSt
  | [], _, st => st
  | p2 :: rest, p1, st => pipWalk x y rest p2 (pipStep x y p1 p2 st)

/-- Full instrumented run of `point_in_polygon` on `point = (x, y)`.
For a nonempty polygon `p0 :: rest` the visited `p2` sequence is
`polygon[1], ..., polygon[n-1], polygon[0]`, i.e. `rest ++ [p0]`.
(Python raises `IndexError` on an empty polygon; that case is unreachable in
the pipeline and returns the initial state here.) -/
def pipRun (point : Pt) (polygon : List Pt) : PipSt :=
  match polygon with
  | [] => ⟨none, false, false, false⟩
  | p0 :: rest => pipWalk point.1 point.2 (rest ++ [p0]) p0 ⟨none, false, false, false⟩

/-- `point_in_polygon` of the script: ray casting, returning the final
parity flag. -/
def point_in_polygon (point : Pt) (polygon : List Pt) : Bool :=
  (pipRun point polygon).inside

/-! ### Auxiliary geometric notions used by the claims (not part of the script) -/

/-- Whether the edge `e` flips the parity flag for the test point `(x, y)`:
the conjunction of the guards of the loop body, with the interpolated
intercept written directly (inside the guard region `e` is never horizontal,
so the division is the genuine intercept). -/
def flipEdge (x y : ℚ) (e : Pt × Pt) : Bool :=
  decide (min e.1.2 e.2.2 < y ∧ y ≤ max e.1.2 e.2.2 ∧ x ≤ max e.1.1 e.2.1 ∧
    (e.1.1 = e.2.1 ∨ x ≤ (y - e.1.2) * (e.2.1 - e.1.1) / (e.2.2 - e.1.2) + e.1.1))

/-- The consecutive pairs of the walk that starts at `a` and visits `l`. -/
def walkPairs : Pt → List Pt → List (Pt × Pt)
  | _, [] => []
  | a, b :: t => (a, b) :: walkPairs b t

/-- The directed edge list of a polygon, exactly as traversed by
`point_in_polygon`: `(v0,v1), (v1,v2), ..., (v(n-1),v0)`. -/
def cycEdges : List Pt → List (Pt × Pt)
  | [] => []
  | p0 :: rest => walkPairs p0 (rest ++ [p0])

/-- Vertex `i` of the polygon, indices read cyclically. -/
def nvtx (vs : List Pt) (i : ℕ) : Pt := vs.getD (i % vs.length) (0, 0)

/-- Signed side of point `p` relative to the directed edge
`v_i → v_(i+1)` of the polygon: positive = strictly to the left. -/
def crossAt (vs : List Pt) (i : ℕ) (p : Pt) : ℚ :=
  cross (nvtx vs (i + 1) - nvtx vs i) (p - nvtx vs i)

/-- Strictly convex polygon, positively (counter-clockwise) oriented: every
vertex lies strictly to the left of every directed edge not incident to it.
This rules out repeated vertices, collinear triples and self-overlapping
traversals, and is the standard strict-convexity condition for a CCW vertex
list. -/
def ConvexCCW (vs : List Pt) : Prop :=
  ∀ i < vs.length, ∀ j < vs.length,
    j ≠ i → j ≠ (i + 1) % vs.length → 0 < crossAt vs i (nvtx vs j)

/-- Strictly convex polygon, negatively (clockwise) oriented. -/
def ConvexCW (vs : List Pt) : Prop :=
  ∀ i < vs.length, ∀ j < vs.length,
    j ≠ i → j ≠ (i + 1) % vs.length → crossAt vs i (nvtx vs j) < 0

/-- Mirror image (negate the x coordinate); maps CW data to CCW data. -/
def mirror (p : Pt) : Pt := (-p.1, p.2)

/-- The x-intercept of (the line through) edge `e` at height `y`, exactly the
`xinters` value the script computes for a non-horizontal edge. -/
def xInter (e : Pt × Pt) (y : ℚ) : ℚ :=
  (y - e.1.2) * (e.2.1 - e.1.1) / (e.2.2 - e.1.2) + e.1.1

/-- Directed edge `i` of the polygon (indices cyclic). -/
def edgeI (vs : List Pt) (i : ℕ) : Pt × Pt := (nvtx vs i, nvtx vs (i + 1))

/-- Edge `i` crosses height `y` going up: lower endpoint strictly below `y`,
upper endpoint at or above it (the half-open convention of the script's
guards). -/
def upAt (vs : List Pt) (y : ℚ) (i : ℕ) : Prop :=
  (nvtx vs i).2 < y ∧ y ≤ (nvtx vs (i + 1)).2

/-- Edge `i` crosses height `y` going down. -/
def downAt (vs : List Pt) (y : ℚ) (i : ℕ) : Prop :=
  (nvtx vs (i + 1)).2 < y ∧ y ≤ (nvtx vs i).2

instance (vs : List Pt) (y : ℚ) (i : ℕ) : Decidable (upAt vs y i) :=
  inferInstanceAs (Decidable ((nvtx vs i).2 < y ∧ y ≤ (nvtx vs (i + 1)).2))

instance (vs : List Pt) (y : ℚ) (i : ℕ) : Decidable (downAt vs y i) :=
  inferInstanceAs (Decidable ((nvtx vs (i + 1)).2 < y ∧ y ≤ (nvtx vs i).2))

/-! ### String helpers (Python `str.lower`, `x in s`) -/

/-- Character-wise lowercase; models Python `str.lower` on the (ASCII)
names compared by the script. -/
def strLower (s : String) : String := String.mk (s.toList.map Char.toLower)

/-- `listContains sub l` : does `sub` occur as a contiguous sublist of `l`?
Models Python's substring test `x in s`. -/
def listContains (sub : List Char) : List Char → Bool
  | [] => sub.isEmpty
  | l@(_ :: cs) => sub.isPrefixOf l || listContains sub cs

/-- Python `sub in s` on strings. -/
def strContains (s sub : String) : Bool := listContains sub.toList s.toList

/-- Python `s.startswith(pre)`. -/
def strStartsWith (s pre : String) : Bool := pre.toList.isPrefixOf s.toList

/-- Python `any(x in name_lower for x in frags)`. -/
def nameHasAny (low : String) (frags : List String) : Bool :=
  frags.any (fun f => strContains low f)

/-! ### Tags and the categorizer -/

/-- OSM tag mapping (Python dict of strings). -/
abbrev Tags : Type := List (String × String)

/-- Python `tags.get(k)` (first-match lookup, `None` when absent). -/
def tagGet? (tags : Tags) (k : String) : Option String := List.lookup k tags

/-- Python `tags.get(k, "")`. -/
def tagGetD (tags : Tags) (k : String) : String := (tagGet? tags k).getD ""

/-- Body of `categorize_poi` after the single `name.lower()` call: the
rule chain of the script, transcribed `if` by `if` in source order (the
script's local variables `building`, `amenity`, `shop`, `leisure` — each
`tags.get(k, "")` — are inlined). -/
def categorize_core (tags : Tags) (name_lower : String) : String :=
  -- RESIDENTIAL / HOSTELS
  if tagGetD tags "building" ∈ ["dormitory", "hostel", "residential"] then "residential"
  else if nameHasAny name_lower ["kolej", "hostel", "asrama", "ktf", "ktr", "ktho", "ktdi", "ktc", "kdse"] then "residential"
  -- ACADEMIC
  else if tagGetD tags "building" ∈ ["university", "college", "school", "academic"] then "academic"
  else if tagGetD tags "amenity" ∈ ["university", "college", "library"] then "academic"
  else if nameHasAny name_lower ["fakulti", "faculty", "dewan", "lecture", "tutorial"] then "academic"
  -- LIBRARY
  else if tagGetD tags "amenity" = "library" ∨ strContains name_lower "perpustakaan" ∨ strContains name_lower "psz" then "library"
  -- DINING
  else if tagGetD tags "amenity" ∈ ["cafe", "restaurant", "fast_food", "food_court"] then "dining"
  else if nameHasAny name_lower ["cafe", "kafe", "arked", "restoran", "kantin", "cafeteria", "mcd", "mcdonald", "burger king", "kfc"] then "dining"
  -- SHOPPING / CONVENIENCE
  else if tagGetD tags "shop" ∈ ["convenience", "supermarket", "general", "kiosk", "mall"] then "shopping"
  else if nameHasAny name_lower ["mart", "kedai", "shop", "store", "7-eleven", "99 speedmart"] then "shopping"
  -- SPORTS / RECREATION
  else if tagGetD tags "leisure" ∈ ["sports_centre", "stadium", "swimming_pool", "pitch", "track", "fitness_centre"] then "sports"
  else if nameHasAny name_lower ["stadium", "gym", "kolam", "pool", "court", "padang", "fitness"] then "sports"
  -- RELIGIOUS
  else if tagGetD tags "amenity" = "place_of_worship" then "religious"
  else if nameHasAny name_lower ["masjid", "surau", "mosque", "musolla", "chapel", "temple"] then "religious"
  -- HEALTHCARE
  else if tagGetD tags "amenity" ∈ ["clinic", "hospital", "pharmacy", "doctors"] then "healthcare"
  else if nameHasAny name_lower ["klinik", "clinic", "hospital", "farmasi", "pharmacy", "health"] then "healthcare"
  -- BANKING
  else if tagGetD tags "amenity" ∈ ["bank", "atm"] then "banking"
  else if nameHasAny name_lower ["bank", "atm", "cimb", "maybank", "rhb"] then "banking"
  -- TRANSIT
  else if tagGetD tags "highway" = "bus_stop" ∨ tagGetD tags "public_transport" ≠ "" then "transit"
  -- ADMINISTRATIVE
  else if tagGetD tags "office" ≠ "" ∨ nameHasAny name_lower ["pejabat", "office", "admin", "canselori", "bursary"] then "administrative"
  -- PARKING
  else if tagGetD tags "amenity" = "parking" then "parking"
  -- DEFAULT
  else if tagGetD tags "building" ≠ "" then "building"
  else "other"

/-- `categorize_poi` of the script.  The display name is used only through
`name.lower()`, computed once up front. -/
def categorize_poi (tags : Tags) (name : String) : String :=
  categorize_core tags (strLower name)

/-! ### Keyword generation -/

/-- The delimiter class of the regex `[\s/,\-()]+` (ASCII whitespace and the
characters `/ , - ( )`). -/
def isDelim (c : Char) : Bool :=
  c = ' ' ∨ c = '\t' ∨ c = '\n' ∨ c = '\r' ∨ c = '\x0b' ∨ c = '\x0c' ∨
  c = '/' ∨ c = ',' ∨ c = '-' ∨ c = '(' ∨ c = ')'

/-- Worker for `re.split(r'[\s/,\-()]+', s)`: accumulates the current token
(reversed) in `acc`; `skipping = true` while inside a delimiter run (the run
was already accounted for by emitting the preceding token). -/
def splitRunAux : List Char → List Char → Bool → List String
  | [], acc, _ => [String.mk acc.reverse]
  | c :: cs, acc, skipping =>
    if isDelim c then
      if skipping then splitRunAux cs [] true
      else String.mk acc.reverse :: splitRunAux cs [] true
    else splitRunAux cs (c :: acc) false

/-- `re.split(r'[\s/,\-()]+', s)`: split on maximal delimiter runs; a leading
(resp. trailing) run contributes a leading (resp. trailing) empty token, as
in Python's `re.split`. -/
def re_split (s : String) : List String := splitRunAux s.toList [] false

/-- The lowercased first character of a word, as a singleton list (empty for
the empty word); models the generator `w[0].lower() for w in words if w`. -/
def firstCharLower (w : String) : List Char :=
  match w.toList with
  | [] => []
  | c :: _ => [c.toLower]

/-- `generate_keywords` of the script. -/
def generate_keywords (name : String) : List String :=
  if name = "" ∨ strStartsWith name "Unnamed" then []
  else
    let words := re_split name
    let keywords := (words.filter fun w => decide (w ≠ "") && decide (1 < w.length)).map strLower
    let acronym := String.mk (words.flatMap firstCharLower)
    let keywords2 :=
      if 1 < words.length ∧ 1 < acronym.length then keywords ++ [acronym]
      else keywords
    keywords2.dedup

/-- Modelled from the spec: the keyword rule stated in §4.4 of the design
document — split the display name on runs of whitespace and `/,-()`
(the *tokens* are the nonempty pieces); lowercase each token; discard tokens
of length ≤ 1; if more than one token resulted, form the acronym from the
first letter of each token and append it when its length exceeds 1;
deduplicate.  Used as the reference definition for the refinement claim about
`generate_keywords`. -/
def generate_keywords_spec (name : String) : List String :=
  if name = "" ∨ strStartsWith name "Unnamed" then []
  else
    let toks := (re_split name).filter fun w => decide (w ≠ "")
    let kws := (toks.map strLower).filter fun w => decide (1 < w.length)
    let acr := String.mk (toks.flatMap firstCharLower)
    (if 1 < toks.length ∧ 1 < acr.length then kws ++ [acr] else kws).dedup

/-! ### Elements and the processing pipeline -/

/-- The precomputed center of a way/relation (`elem["center"]`). -/
structure OsmCenter where
  clat : Option ℚ
  clon : Option ℚ

/-- One raw Overpass element.  `tags` models `elem.get("tags", {})` (an
absent tag dict and an empty one are indistinguishable downstream). -/
structure OsmElement where
  type : String
  osmId : Int
  lat : Option ℚ
  lon : Option ℚ
  center : Option OsmCenter
  tags : Tags

/-- An output POI object; `Option` fields are the tags copied only when
present and nonempty. -/
structure Poi where
  id : String
  osmId : Int
  osmType : String
  name : String
  category : String
  lat : ℚ
  lon : ℚ
  amenity : Option String
  building : Option String
  cuisine : Option String
  shop : Option String
  leisure : Option String
  keywords : List String
deriving DecidableEq

/-- The `stats` dictionary of `process_elements`: these three counters are
the only filtering statistics the function keeps. -/
structure Stats where
  total : ℕ
  in_campus : ℕ
  filtered_out : ℕ

/-- Coordinate resolution of `process_elements`: direct for nodes, the
precomputed center for ways/relations, otherwise unresolved. -/
def resolveCoords (elem : OsmElement) : Option ℚ × Option ℚ :=
  if elem.type = "node" then (elem.lat, elem.lon)
  else if (elem.type = "way" ∨ elem.type = "relation") ∧ elem.center.isSome then
    match elem.center with
    | some c => (c.clat, c.clon)
    | none => (none, none)
  else (none, none)

/-- Python `round(q, 6)` (on the exact rational; Python's float
round-half-to-even can differ on exact half-microdegree ties, which no claim
exercises). -/
def round6 (q : ℚ) : ℚ := (round (q * 1000000) : ℤ) / 1000000

/-- The display name of an element:
`tags.get("name", tags.get("name:en", ""))`. -/
def resolvedName (tags : Tags) : String :=
  (tagGet? tags "name").getD ((tagGet? tags "name:en").getD "")

/-- The tail of the `process_elements` loop body, run after the polygon test
has succeeded: naming, categorization, the two pruning rules, and POI object
construction.  It yields the POIs the element contributes (`[]` when
pruned). -/
def buildPois (elem : OsmElement) (lat lon : ℚ) : List Poi :=
  -- Skip ONLY unnamed parking lots (keep all buildings)
  if categorize_poi elem.tags (resolvedName elem.tags) = "parking" ∧
      resolvedName elem.tags = "" then []
  -- Skip unnamed "other" category items that aren't buildings
  else if categorize_poi elem.tags (resolvedName elem.tags) = "other" ∧
      resolvedName elem.tags = "" ∧ tagGetD elem.tags "building" = "" then []
  else
    [{ id := elem.type ++ "_" ++ toString elem.osmId
       osmId := elem.osmId
       osmType := elem.type
       name := if resolvedName elem.tags ≠ "" then resolvedName elem.tags
         else "Unnamed " ++ categorize_poi elem.tags (resolvedName elem.tags)
       category := categorize_poi elem.tags (resolvedName elem.tags)
       lat := round6 lat
       lon := round6 lon
       amenity := if tagGetD elem.tags "amenity" = "" then none else some (tagGetD elem.tags "amenity")
       building := if tagGetD elem.tags "building" = "" then none else some (tagGetD elem.tags "building")
       cuisine := if tagGetD elem.tags "cuisine" = "" then none else some (tagGetD elem.tags "cuisine")
       shop := if tagGetD elem.tags "shop" = "" then none else some (tagGetD elem.tags "shop")
       leisure := if tagGetD elem.tags "leisure" = "" then none else some (tagGetD elem.tags "leisure")
       keywords := generate_keywords (resolvedName elem.tags) }]

/-- One iteration of the `process_elements` loop. -/
def processStep (polygon : List Pt) (acc : List Poi × Stats) (elem : OsmElement) :
    List Poi × Stats :=
  let pois := acc.1
  let stats := acc.2
  let stats := { stats with total := stats.total + 1 }
  match resolveCoords elem with
  | (some lat, some lon) =>
    if ¬ point_in_polygon (lon, lat) polygon then
      (pois, { stats with filtered_out := stats.filtered_out + 1 })
    else
      let stats := { stats with in_campus := stats.in_campus + 1 }
      (pois ++ buildPois elem lat lon, stats)
  | _ => (pois, stats)

/-- `process_elements` of the script: returns the POI list and the final
filtering statistics. -/
def process_elements (elements : List OsmElement) (polygon : List Pt) :
    List Poi × Stats :=
  elements.foldl (processStep polygon) ([], ⟨0, 0, 0⟩)

/-! ### Fetch and main-pipeline model -/

/-- Outcome of the single Overpass HTTP POST: a response with a status code
and decoded `elements` array, or a transport-level exception. -/
inductive FetchOutcome
  | ok (status : ℕ) (elements : List OsmElement)
  | exn

/-- `extract_pois` of the script, as a function of the request outcome: the
element list on HTTP 200, the empty list on any other status or on an
exception. -/
def extract_pois : FetchOutcome → List OsmElement
  | .ok status els => if status = 200 then els else []
  | .exn => []

/-- Outcome of loading the boundary polygon in `main`. -/
inductive PolyLoad
  | ok (polygon : List Pt)
  | fileNotFound
  | otherError

/-- Observable outcome of `main`: which early `return` was taken, or the
data that reaches the write stage (step 5).  `wrote` is produced exactly
when the write stage is reached. -/
inductive MainOutcome
  | abortedPolygon
  | abortedNoElements
  | wrote (pois : List Poi) (stats : Stats)

/-- Control flow of `main`, as a function of the two effectful outcomes
(polygon load, HTTP fetch): abort on a polygon error; abort before the write
stage when the retrieved element list is empty (`if not elements: return`);
otherwise process and write. -/
def mainModel (load : PolyLoad) (fetch : FetchOutcome) : MainOutcome :=
  match load with
  | .fileNotFound => .abortedPolygon
  | .otherError => .abortedPolygon
  | .ok polygon =>
    let elements := extract_pois fetch
    if elements.isEmpty then .abortedNoElements
    else
      let pr := process_elements elements polygon
      .wrote pr.1 pr.2

/-! ### The categorizer as an ordered rule table -/

/-- One categorization rule: a predicate over the tag mapping and the
lowercased display name, and the label returned when it matches. -/
structure PoiRule where
  label : String
  applies : Tags → String → Bool

/-- The rule table of the categorizer, in the precedence order stated by the
spec (residential, academic, library, dining, shopping, sports, religious,
healthcare, banking, transit, administrative, parking, building); the
fallback label is `"other"`.  Each predicate is the disjunction of the
tag-based and name-based conditions of the corresponding block of
`categorize_poi`. -/
def poiRules : List PoiRule :=
  [ ⟨"residential", fun tags low =>
      decide (tagGetD tags "building" ∈ ["dormitory", "hostel", "residential"]) ||
      nameHasAny low ["kolej", "hostel", "asrama", "ktf", "ktr", "ktho", "ktdi", "ktc", "kdse"]⟩,
    ⟨"academic", fun tags low =>
      decide (tagGetD tags "building" ∈ ["university", "college", "school", "academic"]) ||
      decide (tagGetD tags "amenity" ∈ ["university", "college", "library"]) ||
      nameHasAny low ["fakulti", "faculty", "dewan", "lecture", "tutorial"]⟩,
    ⟨"library", fun tags low =>
      decide (tagGetD tags "amenity" = "library") || strContains low "perpustakaan" || strContains low "psz"⟩,
    ⟨"dining", fun tags low =>
      decide (tagGetD tags "amenity" ∈ ["cafe", "restaurant", "fast_food", "food_court"]) ||
      nameHasAny low ["cafe", "kafe", "arked", "restoran", "kantin", "cafeteria", "mcd", "mcdonald", "burger king", "kfc"]⟩,
    ⟨"shopping", fun tags low =>
      decide (tagGetD tags "shop" ∈ ["convenience", "supermarket", "general", "kiosk", "mall"]) ||
      nameHasAny low ["mart", "kedai", "shop", "store", "7-eleven", "99 speedmart"]⟩,
    ⟨"sports", fun tags low =>
      decide (tagGetD tags "leisure" ∈ ["sports_centre", "stadium", "swimming_pool", "pitch", "track", "fitness_centre"]) ||
      nameHasAny low ["stadium", "gym", "kolam", "pool", "court", "padang", "fitness"]⟩,
    ⟨"religious", fun tags low =>
      decide (tagGetD tags "amenity" = "place_of_worship") ||
      nameHasAny low ["masjid", "surau", "mosque", "musolla", "chapel", "temple"]⟩,
    ⟨"healthcare", fun tags low =>
      decide (tagGetD tags "amenity" ∈ ["clinic", "hospital", "pharmacy", "doctors"]) ||
      nameHasAny low ["klinik", "clinic", "hospital", "farmasi", "pharmacy", "health"]⟩,
    ⟨"banking", fun tags low =>
      decide (tagGetD tags "amenity" ∈ ["bank", "atm"]) ||
      nameHasAny low ["bank", "atm", "cimb", "maybank", "rhb"]⟩,
    ⟨"transit", fun tags _ =>
      decide (tagGetD tags "highway" = "bus_stop") || decide (tagGetD tags "public_transport" ≠ "")⟩,
    ⟨"administrative", fun tags low =>
      decide (tagGetD tags "office" ≠ "") ||
      nameHasAny low ["pejabat", "office", "admin", "canselori", "bursary"]⟩,
    ⟨"parking", fun tags _ => decide (tagGetD tags "amenity" = "parking")⟩,
    ⟨"building", fun tags _ => decide (tagGetD tags "building" ≠ "")⟩ ]

/-- Run an ordered rule table: the label of the first matching rule,
`"other"` when none matches. -/
def runPoiRules (rules : List PoiRule) (tags : Tags) (name_lower : String) : String :=
  match rules.find? (fun r => r.applies tags name_lower) with
  | some r => r.label
  | none => "other"

/-! ### Concrete fixtures used by the claims -/

/-- Whether `process_elements` can resolve coordinates for the element. -/
def hasCoords (elem : OsmElement) : Bool :=
  match resolveCoords elem with
  | (some _, some _) => true
  | _ => false

/-- The rectangle of the end-to-end scenario: lon ∈ [103.63, 103.65],
lat ∈ [1.55, 1.57], as a `(lon, lat)` vertex list. -/
def rectPoly : List Pt :=
  [(103.63, 1.55), (103.65, 1.55), (103.65, 1.57), (103.63, 1.57)]

/-- The raw library node of the end-to-end scenario. -/
def pszNode : OsmElement :=
  ⟨"node", 1001, some 1.56, some 103.64, none,
    [("amenity", "library"), ("name", "Perpustakaan Sultanah Zanariah")]⟩

/-- An unnamed parking node inside the rectangle. -/
def unnamedParkingNode : OsmElement :=
  ⟨"node", 1002, some 1.56, some 103.64, none, [("amenity", "parking")]⟩

/-- An unnamed generic building node inside the rectangle. -/
def unnamedBuildingNode : OsmElement :=
  ⟨"node", 1003, some 1.56, some 103.64, none, [("building", "yes")]⟩

/-- A nameless node whose `building` tag is present but has the empty string
as value: it *has* a building tag, yet Python's truthiness test
`tags.get("building")` treats it like an absent one. -/
def emptyBuildingNode : OsmElement :=
  ⟨"node", 1004, some 1.56, some 103.64, none, [("building", "")]⟩

/-- A way with no resolvable coordinates (no direct lat/lon, no center). -/
def noCoordsWay : OsmElement :=
  ⟨"way", 2001, none, none, none, [("building", "yes"), ("name", "Ghost")]⟩

/-- A node whose genuine display name happens to start with `"Unnamed"`. -/
def unnamedNameNode : OsmElement :=
  ⟨"node", 1005, some 1.56, some 103.64, none,
    [("name", "Unnamed Cafe Corner"), ("amenity", "cafe")]⟩

/-! ## General helper lemmas -/

theorem ite_or_elim {c d : Prop} [Decidable c] [Decidable d] {α : Type} (x y : α) :
    (if c ∨ d then x else y) = if c then x else if d then x else y := by
  by_cases hc : c <;> by_cases hd : d <;> simp [hc, hd]

theorem runPoiRules_cons (r : PoiRule) (rs : List PoiRule) (tags : Tags) (low : String) :
    runPoiRules (r :: rs) tags low =
      if r.applies tags low then r.label else runPoiRules rs tags low := by
  unfold runPoiRules
  rw [List.find?_cons]
  by_cases h : r.applies tags low = true
  · simp [h]
  · simp [h]

/-- `categorize_poi` is the rule table run in the spec's precedence order. -/
theorem categorize_eq_runPoiRules (tags : Tags) (name : String) :
    categorize_poi tags name = runPoiRules poiRules tags (strLower name) := by
  unfold categorize_poi categorize_core poiRules
  rw [runPoiRules_cons, runPoiRules_cons, runPoiRules_cons, runPoiRules_cons,
      runPoiRules_cons, runPoiRules_cons, runPoiRules_cons, runPoiRules_cons,
      runPoiRules_cons, runPoiRules_cons, runPoiRules_cons, runPoiRules_cons,
      runPoiRules_cons]
  simp only [runPoiRules, List.find?_nil, Bool.or_eq_true, decide_eq_true_eq, ite_or_elim]

/-- Any lowercased name matching the residential fragment list is classified
residential, whatever the tags. -/
theorem categorize_core_residential (tags : Tags) (low : String)
    (h : nameHasAny low ["kolej", "hostel", "asrama", "ktf", "ktr", "ktho", "ktdi", "ktc", "kdse"] = true) :
    categorize_core tags low = "residential" := by
  unfold categorize_core
  by_cases hb : tagGetD tags "building" ∈ ["dormitory", "hostel", "residential"]
  · rw [if_pos hb]
  · rw [if_neg hb, if_pos (by rw [h])]

/-! ## Flag preservation in `point_in_polygon` (no stale or unset reads) -/

theorem pipStep_flags (x y : ℚ) (p1 p2 : Pt) (st : PipSt) :
    (pipStep x y p1 p2 st).staleEval = st.staleEval ∧
      (pipStep x y p1 p2 st).unsetEval = st.unsetEval := by
  unfold pipStep
  by_cases h1 : y > min p1.2 p2.2
  · by_cases h2 : y ≤ max p1.2 p2.2
    · by_cases hyy : p1.2 = p2.2
      · exfalso
        rw [hyy] at h1 h2
        simp at h1 h2
        linarith
      · by_cases h3 : x ≤ max p1.1 p2.1
        · simp only [if_pos h1, if_pos h2, if_pos h3, if_pos (show p1.2 ≠ p2.2 from hyy)]
          by_cases h4 : p1.1 = p2.1
          · simp [h4]
          · simp only [if_neg h4]
            by_cases h5 : x ≤ (y - p1.2) * (p2.1 - p1.1) / (p2.2 - p1.2) + p1.1
            · simp [h5, hyy]
            · simp [h5, hyy]
        · simp [h1, h2, h3]
    · simp [h1, h2]
  · simp [h1]

theorem pipWalk_flags (x y : ℚ) (l : List Pt) (p1 : Pt) (st : PipSt) :
    (pipWalk x y l p1 st).staleEval = st.staleEval ∧
      (pipWalk x y l p1 st).unsetEval = st.unsetEval := by
  induction l generalizing p1 st with
  | nil => exact ⟨rfl, rfl⟩
  | cons b t ih =>
    have hs := pipStep_flags x y p1 b st
    have hw := ih b (pipStep x y p1 b st)
    exact ⟨hw.1.trans hs.1, hw.2.trans hs.2⟩

theorem pipRun_flags (point : Pt) (polygon : List Pt) :
    (pipRun point polygon).staleEval = false ∧ (pipRun point polygon).unsetEval = false := by
  unfold pipRun
  match polygon with
  | [] => exact ⟨rfl, rfl⟩
  | p0 :: rest => exact pipWalk_flags point.1 point.2 (rest ++ [p0]) p0 ⟨none, false, false, false⟩

/-- The scenario point `(lon, lat) = (103.64, 1.56)` lies inside the
scenario rectangle. -/
theorem rect_pip_inside : point_in_polygon (103.64, 1.56) rectPoly = true := by
  norm_num [point_in_polygon, pipRun, pipWalk, pipStep, rectPoly]

/-- Evaluation of `process_elements` on a single in-polygon element. -/
theorem process_single (elem : OsmElement) (poly : List Pt) (lat lon : ℚ)
    (hrc : resolveCoords elem = (some lat, some lon))
    (hpip : point_in_polygon (lon, lat) poly = true) :
    process_elements [elem] poly = (buildPois elem lat lon, ⟨1, 1, 0⟩) := by
  simp only [process_elements, List.foldl, processStep, hrc, hpip]
  simp

/-! ## Claim C7: no stale or unset `xinters` read -/

/-- Claim C7 (counterexample): the claim asserts that for some input point
and polygon the comparison `x <= xinters` is evaluated with a stale or unset
`xinters` surviving from a prior iteration.  No input whatsoever can produce
such a read: the guards `y > min(p1y,p2y)` and `y <= max(p1y,p2y)` are
unsatisfiable on a horizontal edge, so every evaluation of `x <= xinters`
happens on an edge whose intercept was just assigned. -/
theorem stale_xinters_counterexample :
    ¬ ∃ (point : Pt) (polygon : List Pt),
        (pipRun point polygon).staleEval = true ∨ (pipRun point polygon).unsetEval = true := by
  rintro ⟨pt, vs, h | h⟩
  · rw [(pipRun_flags pt vs).1] at h
    exact Bool.noConfusion h
  · rw [(pipRun_flags pt vs).2] at h
    exact Bool.noConfusion h

/-- Claim C7 (amended): on every input, every evaluation of `x <= xinters`
in `point_in_polygon` uses the intercept computed in the same loop iteration
— the tie-break can never read a stale or unset `xinters`, because the
`y`-guards exclude horizontal edges (`p1y == p2y`) from the branch. -/
theorem stale_xinters_amended (point : Pt) (polygon : List Pt) :
    (pipRun point polygon).staleEval = false ∧ (pipRun point polygon).unsetEval = false :=
  pipRun_flags point polygon

/-! ## Claim C9: case-insensitive name matching -/

/-- Claim C9: `categorize_poi` uses the display name only through
`name.lower()`, so two names with equal lowercasings classify identically
for every tag mapping; and both `"KOLEJ TUAH"` and `"kolej tuah"` classify
as residential for every tag mapping. -/
theorem categorize_case_insensitive :
    (∀ (tags : Tags) (n1 n2 : String), strLower n1 = strLower n2 →
        categorize_poi tags n1 = categorize_poi tags n2) ∧
      ∀ tags : Tags, categorize_poi tags "KOLEJ TUAH" = "residential" ∧
        categorize_poi tags "kolej tuah" = "residential" := by
  constructor
  · intro tags n1 n2 h
    unfold categorize_poi
    rw [h]
  · intro tags
    exact ⟨categorize_core_residential tags _ (by decide),
      categorize_core_residential tags _ (by decide)⟩

/-- Witness for C9 at the concrete pair of names. -/
theorem categorize_case_insensitive_witness :
    categorize_poi [] "KOLEJ TUAH" = categorize_poi [] "kolej tuah" :=
  categorize_case_insensitive.1 [] "KOLEJ TUAH" "kolej tuah" (by decide)

/-! ## Claim C2: fixed precedence of the categorizer -/

/-- Claim C2 (counterexample): an element tagged `amenity=cafe` and
`shop=supermarket` whose name is `"Kolej Tuah"` is classified residential
(the residential name-fragment rule precedes dining), refuting the claim
that *every* such element, with any name, classifies as dining. -/
theorem categorize_precedence_counterexample :
    categorize_poi [("amenity", "cafe"), ("shop", "supermarket")] "Kolej Tuah" = "residential" ∧
      categorize_poi [("amenity", "cafe"), ("shop", "supermarket")] "Kolej Tuah" ≠ "dining" := by
  constructor <;> decide

/-- Claim C2 (amended): `categorize_poi` equals the ordered rule table in
the precedence order residential, academic, library, dining, shopping,
sports, religious, healthcare, banking, transit, administrative, parking,
building, with fallback `"other"` (first match wins); and every element
tagged both `amenity=cafe` and `shop=supermarket` whose building tag and
name do not trigger one of the three earlier rules (residential, academic,
library) classifies as dining. -/
theorem categorize_precedence_amended :
    (∀ (tags : Tags) (name : String),
        categorize_poi tags name = runPoiRules poiRules tags (strLower name)) ∧
      ∀ (tags : Tags) (name : String),
        tagGetD tags "amenity" = "cafe" →
        tagGetD tags "shop" = "supermarket" →
        tagGetD tags "building" ∉ ["dormitory", "hostel", "residential"] →
        nameHasAny (strLower name) ["kolej", "hostel", "asrama", "ktf", "ktr", "ktho", "ktdi", "ktc", "kdse"] = false →
        tagGetD tags "building" ∉ ["university", "college", "school", "academic"] →
        nameHasAny (strLower name) ["fakulti", "faculty", "dewan", "lecture", "tutorial"] = false →
        strContains (strLower name) "perpustakaan" = false →
        strContains (strLower name) "psz" = false →
        categorize_poi tags name = "dining" := by
  refine ⟨categorize_eq_runPoiRules, ?_⟩
  intro tags name ha hs hb1 hn1 hb2 hn2 hp1 hp2
  unfold categorize_poi categorize_core
  rw [if_neg hb1, if_neg (by simp [hn1]), if_neg hb2, if_neg (by rw [ha]; decide),
      if_neg (by simp [hn2]), if_neg (by rw [ha]; simp [hp1, hp2]),
      if_pos (by rw [ha]; decide)]

/-- Witness for C2 (amended) at a concrete neutral-named cafe/supermarket
element. -/
theorem categorize_precedence_witness :
    categorize_poi [("amenity", "cafe"), ("shop", "supermarket")] "Arked Meranti" = "dining" :=
  categorize_precedence_amended.2 [("amenity", "cafe"), ("shop", "supermarket")] "Arked Meranti"
    (by decide) (by decide) (by decide) (by decide) (by decide) (by decide) (by decide) (by decide)

/-! ## Claim C8: error handling of the fetch and the empty-element abort -/

/-- Claim C8: `extract_pois` returns the empty list on every non-200
response and on a transport exception; and whenever the element list
entering the pipeline is empty, `main` aborts before the write stage (no
output is produced on this path). -/
theorem extract_pois_error_handling :
    (∀ (status : ℕ) (els : List OsmElement), status ≠ 200 → extract_pois (.ok status els) = []) ∧
      extract_pois .exn = [] ∧
      ∀ (load : PolyLoad) (fetch : FetchOutcome), extract_pois fetch = [] →
        ∀ (pois : List Poi) (stats : Stats), mainModel load fetch ≠ .wrote pois stats := by
  refine ⟨?_, rfl, ?_⟩
  · intro status els h
    simp [extract_pois, h]
  · intro load fetch h pois stats
    cases load <;> simp [mainModel, h]

/-- Witness for C8 at a concrete 404 response. -/
theorem extract_pois_error_handling_witness :
    extract_pois (.ok 404 [pszNode]) = [] ∧
      mainModel (.ok rectPoly) (.ok 404 [pszNode]) ≠ .wrote [] ⟨0, 0, 0⟩ := by
  have h1 := extract_pois_error_handling.1 404 [pszNode] (by decide)
  exact ⟨h1, extract_pois_error_handling.2.2 (.ok rectPoly) (.ok 404 [pszNode]) h1 [] ⟨0, 0, 0⟩⟩

/-! ## Claim C10: `generate_keywords` on empty and `Unnamed`-prefixed names -/

/-- Claim C10: `generate_keywords` returns `[]` for every name that is empty
or starts with `"Unnamed"` — including genuine display names — and such a
POI is output with an empty keyword list (here: a node genuinely named
`"Unnamed Cafe Corner"`, retained with that name and `keywords = []`). -/
theorem generate_keywords_unnamed_empty :
    (∀ name : String, name = "" ∨ strStartsWith name "Unnamed" = true →
        generate_keywords name = []) ∧
      (process_elements [unnamedNameNode] rectPoly).1.map Poi.name = ["Unnamed Cafe Corner"] ∧
      (process_elements [unnamedNameNode] rectPoly).1.map Poi.keywords = [[]] := by
  refine ⟨?_, ?_⟩
  · intro name h
    unfold generate_keywords
    rw [if_pos (by simpa using h)]
  · rw [process_single unnamedNameNode rectPoly 1.56 103.64 rfl rect_pip_inside]
    exact ⟨by decide, by decide⟩

/-- Witness for C10 at the concrete name `"Unnamed building"`. -/
theorem generate_keywords_unnamed_empty_witness :
    generate_keywords "Unnamed building" = [] :=
  generate_keywords_unnamed_empty.1 "Unnamed building" (Or.inr (by decide))

/-! ## Claim C4: keyword generation refines the spec's rule -/

theorem strLower_length (w : String) : (strLower w).length = w.length := by
  show (String.mk (w.toList.map Char.toLower)).length = w.length
  rw [show (String.mk (w.toList.map Char.toLower)).length = (w.toList.map Char.toLower).length from rfl,
    List.length_map]
  rfl

/-- Empty words contribute nothing to the acronym, so filtering them away
first does not change it. -/
theorem flatMap_fcl_filter (l : List String) :
    l.flatMap firstCharLower = (l.filter fun w => decide (w ≠ "")).flatMap firstCharLower := by
  induction l with
  | nil => rfl
  | cons w t ih =>
    by_cases h : w = ""
    · subst h
      simpa [List.flatMap_cons, firstCharLower] using ih
    · simp [List.flatMap_cons, List.filter_cons, h, ih]

theorem toList_eq_nil (w : String) (h : w.toList = []) : w = "" := by
  cases w with
  | mk data => cases data with
    | nil => rfl
    | cons c cs => simp [String.toList] at h

/-- Each nonempty word contributes exactly one acronym character. -/
theorem flatMap_fcl_length (l : List String) (h : ∀ w ∈ l, w ≠ "") :
    (l.flatMap firstCharLower).length = l.length := by
  induction l with
  | nil => rfl
  | cons w t ih =>
    have hw : w ≠ "" := h w (by simp)
    rw [List.flatMap_cons, List.length_append, ih (fun v hv => h v (by simp [hv])),
      List.length_cons]
    cases hl : w.data with
    | nil => exact absurd (toList_eq_nil w hl) hw
    | cons c cs =>
      simp [firstCharLower, hl]
      omega

theorem mk_length (l : List Char) : (String.mk l).length = l.length := rfl

/-- Core of the keyword-refinement claim: over any word list, the script's
construction (filter on nonemptiness and length, acronym over all words,
guard `len(words) > 1 and len(acronym) > 1`) yields the same list as the
spec's construction over the nonempty tokens only. -/
theorem gk_core (ws : List String) :
    (if 1 < ws.length ∧ 1 < (String.mk (ws.flatMap firstCharLower)).length then
        ((ws.filter fun w => decide (w ≠ "") && decide (1 < w.length)).map strLower) ++
          [String.mk (ws.flatMap firstCharLower)]
      else ((ws.filter fun w => decide (w ≠ "") && decide (1 < w.length)).map strLower)).dedup =
    (if 1 < (ws.filter fun w => decide (w ≠ "")).length ∧
        1 < (String.mk ((ws.filter fun w => decide (w ≠ "")).flatMap firstCharLower)).length then
        (((ws.filter fun w => decide (w ≠ "")).map strLower).filter fun w => decide (1 < w.length)) ++
          [String.mk ((ws.filter fun w => decide (w ≠ "")).flatMap firstCharLower)]
      else (((ws.filter fun w => decide (w ≠ "")).map strLower).filter fun w => decide (1 < w.length))).dedup := by
  have hacr := flatMap_fcl_filter ws
  have hmem : ∀ w ∈ ws.filter fun w => decide (w ≠ ""), w ≠ "" := by
    intro w hw
    simpa using List.of_mem_filter hw
  have hlen : (String.mk ((ws.filter fun w => decide (w ≠ "")).flatMap firstCharLower)).length
      = (ws.filter fun w => decide (w ≠ "")).length := by
    rw [mk_length]
    exact flatMap_fcl_length _ hmem
  have hkws : (ws.filter fun w => decide (w ≠ "") && decide (1 < w.length)).map strLower
      = ((ws.filter fun w => decide (w ≠ "")).map strLower).filter fun w => decide (1 < w.length) := by
    rw [List.filter_map, List.filter_filter]
    congr 1
    apply List.filter_congr
    intro w _
    simp [Function.comp, strLower_length, Bool.and_comm]
  rw [hacr, hkws]
  apply congrArg
  apply if_congr _ rfl rfl
  constructor
  · rintro ⟨-, hb⟩
    rw [hlen] at hb
    exact ⟨hb, by rw [hlen]; exact hb⟩
  · rintro ⟨ht, hb⟩
    exact ⟨lt_of_lt_of_le ht (List.length_filter_le _ _), hb⟩

/-- Claim C4: for every nonempty name not starting with `"Unnamed"`,
`generate_keywords` equals the reference definition written from the spec's
words (split on delimiter runs, lowercase, discard length-≤1 tokens, append
the acronym of the tokens when more than one token resulted and its length
exceeds 1, deduplicate); in particular on
`"Fakulti Kejuruteraan Elektrik"` it yields, as a set,
`{"fakulti", "kejuruteraan", "elektrik", "fke"}`. -/
theorem generate_keywords_matches_spec :
    (∀ name : String, name ≠ "" → strStartsWith name "Unnamed" = false →
        generate_keywords name = generate_keywords_spec name) ∧
      (generate_keywords "Fakulti Kejuruteraan Elektrik").toFinset =
        ({"fakulti", "kejuruteraan", "elektrik", "fke"} : Finset String) := by
  refine ⟨?_, by decide⟩
  intro name h1 h2
  unfold generate_keywords generate_keywords_spec
  rw [if_neg (show ¬(name = "" ∨ strStartsWith name "Unnamed" = true) by simp [h1, h2]),
    if_neg (show ¬(name = "" ∨ strStartsWith name "Unnamed" = true) by simp [h1, h2])]
  exact gk_core (re_split name)

/-- Witness for C4 at the concrete faculty name. -/
theorem generate_keywords_matches_spec_witness :
    generate_keywords "Fakulti Kejuruteraan Elektrik" =
      generate_keywords_spec "Fakulti Kejuruteraan Elektrik" :=
  generate_keywords_matches_spec.1 "Fakulti Kejuruteraan Elektrik" (by decide) (by decide)

/-! ## Claim C1: the end-to-end library-node scenario -/

/-- Claim C1 (counterexample): the scenario produces exactly one POI, but
its category is `"academic"`, not `"library"`: the academic rule
`amenity in ["university", "college", "library"]` precedes the library rule
in `categorize_poi`, so `amenity=library` is classified academic. -/
theorem end_to_end_library_counterexample :
    (process_elements [pszNode] rectPoly).1.map Poi.category = ["academic"] ∧
      ("academic" : String) ≠ "library" := by
  rw [process_single pszNode rectPoly 1.56 103.64 rfl rect_pip_inside]
  exact ⟨by decide, by decide⟩

/-- Claim C1 (amended): the pipeline on the scenario input produces exactly
one POI, with category `"academic"` and with keywords containing
`"perpustakaan"`, `"sultanah"`, `"zanariah"` and the acronym `"psz"`
(the computed keyword list is exactly those four). -/
theorem end_to_end_library_amended :
    (process_elements [pszNode] rectPoly).1.map Poi.category = ["academic"] ∧
      (process_elements [pszNode] rectPoly).1.map Poi.keywords =
        [["perpustakaan", "sultanah", "zanariah", "psz"]] := by
  rw [process_single pszNode rectPoly 1.56 103.64 rfl rect_pip_inside]
  exact ⟨by decide, by decide⟩

/-! ## Claim C6: elements without resolvable coordinates -/

/-- The output POIs of a step depend on the accumulator only through its POI
list, and are appended to it. -/
theorem processStep_pois (poly : List Pt) (acc : List Poi × Stats) (e : OsmElement) :
    (processStep poly acc e).1 = acc.1 ++ (processStep poly ([], acc.2) e).1 := by
  unfold processStep
  rcases hrc : resolveCoords e with ⟨_ | lat, _ | lon⟩ <;> simp <;> split_ifs <;> simp

/-- Per-step statistics bookkeeping: `total` always increments; exactly one
of `in_campus`/`filtered_out` increments when the coordinates resolve, and
neither does when they do not; a coordinate-less element contributes no POI. -/
theorem processStep_stats (poly : List Pt) (acc : List Poi × Stats) (e : OsmElement) :
    (processStep poly acc e).2.total = acc.2.total + 1 ∧
      (processStep poly acc e).2.in_campus + (processStep poly acc e).2.filtered_out =
        acc.2.in_campus + acc.2.filtered_out + (if hasCoords e then 1 else 0) ∧
      (hasCoords e = false → (processStep poly acc e).1 = acc.1) := by
  unfold processStep hasCoords
  rcases hrc : resolveCoords e with ⟨_ | lat, _ | lon⟩ <;> simp <;> split_ifs <;>
    simp <;> omega

/-- The POIs a single step produces do not depend on the statistics
component of the accumulator. -/
theorem processStep_pois_indep (poly : List Pt) (p : List Poi) (s s' : Stats)
    (e : OsmElement) :
    (processStep poly (p, s) e).1 = (processStep poly (p, s') e).1 := by
  unfold processStep
  rcases hrc : resolveCoords e with ⟨_ | lat, _ | lon⟩ <;> simp <;> split_ifs <;> simp

/-- The POI component of the fold does not depend on the statistics
component of the accumulator. -/
theorem foldl_pois_stats_indep (poly : List Pt) (els : List OsmElement)
    (p : List Poi) (s s' : Stats) :
    (els.foldl (processStep poly) (p, s)).1 = (els.foldl (processStep poly) (p, s')).1 := by
  induction els generalizing p s s' with
  | nil => rfl
  | cons e t ih =>
    rw [List.foldl_cons, List.foldl_cons]
    calc (t.foldl (processStep poly) (processStep poly (p, s) e)).1
        = (t.foldl (processStep poly)
            ((processStep poly (p, s) e).1, (processStep poly (p, s) e).2)).1 := by
          rw [Prod.mk.eta]
      _ = (t.foldl (processStep poly)
            ((processStep poly (p, s') e).1, (processStep poly (p, s) e).2)).1 := by
          rw [processStep_pois_indep]
      _ = (t.foldl (processStep poly)
            ((processStep poly (p, s') e).1, (processStep poly (p, s') e).2)).1 :=
          ih _ _ _
      _ = (t.foldl (processStep poly) (processStep poly (p, s') e)).1 := by
          rw [Prod.mk.eta]

/-- Skipped (coordinate-less) elements leave the POI output of the fold
unchanged: processing a list produces the same POIs as processing only its
coordinate-resolvable elements. -/
theorem foldl_pois_filter (poly : List Pt) (els : List OsmElement)
    (p : List Poi) (s : Stats) :
    (els.foldl (processStep poly) (p, s)).1 =
      ((els.filter hasCoords).foldl (processStep poly) (p, s)).1 := by
  induction els generalizing p s with
  | nil => rfl
  | cons e t ih =>
    by_cases h : hasCoords e
    · rw [List.foldl_cons, List.filter_cons_of_pos h, List.foldl_cons]
      calc (t.foldl (processStep poly) (processStep poly (p, s) e)).1
          = (t.foldl (processStep poly)
              ((processStep poly (p, s) e).1, (processStep poly (p, s) e).2)).1 := by
            rw [Prod.mk.eta]
        _ = ((t.filter hasCoords).foldl (processStep poly)
              ((processStep poly (p, s) e).1, (processStep poly (p, s) e).2)).1 := ih _ _
        _ = ((t.filter hasCoords).foldl (processStep poly) (processStep poly (p, s) e)).1 := by
            rw [Prod.mk.eta]
    · have hf : hasCoords e = false := by simpa using h
      rw [List.foldl_cons, List.filter_cons_of_neg (by simp [hf])]
      have hpois : (processStep poly (p, s) e).1 = p := (processStep_stats poly (p, s) e).2.2 hf
      calc (t.foldl (processStep poly) (processStep poly (p, s) e)).1
          = (t.foldl (processStep poly)
              ((processStep poly (p, s) e).1, (processStep poly (p, s) e).2)).1 := by
            rw [Prod.mk.eta]
        _ = (t.foldl (processStep poly) (p, (processStep poly (p, s) e).2)).1 := by
            rw [hpois]
        _ = (t.foldl (processStep poly) (p, s)).1 := foldl_pois_stats_indep _ _ _ _ _
        _ = ((t.filter hasCoords).foldl (processStep poly) (p, s)).1 := ih _ _

/-- `total` of the fold counts every element. -/
theorem foldl_stats_total (poly : List Pt) (els : List OsmElement)
    (acc : List Poi × Stats) :
    (els.foldl (processStep poly) acc).2.total = acc.2.total + els.length := by
  induction els generalizing acc with
  | nil => simp
  | cons e t ih =>
    rw [List.foldl_cons, ih, (processStep_stats poly acc e).1, List.length_cons]
    omega

/-- `in_campus + filtered_out` of the fold counts exactly the elements with
resolvable coordinates. -/
theorem foldl_stats_inout (poly : List Pt) (els : List OsmElement)
    (acc : List Poi × Stats) :
    (els.foldl (processStep poly) acc).2.in_campus +
        (els.foldl (processStep poly) acc).2.filtered_out =
      acc.2.in_campus + acc.2.filtered_out + els.countP hasCoords := by
  induction els generalizing acc with
  | nil => simp
  | cons e t ih =>
    rw [List.foldl_cons, ih, List.countP_cons]
    have h := (processStep_stats poly acc e).2.1
    by_cases hc : hasCoords e <;> simp [hc] at h ⊢ <;> omega

/-- Claim C6 (counterexample): the claim says a coordinate-less element is
"counted separately in the filtering statistics"; in fact processing one
such element leaves every statistic except the all-elements counter `total`
untouched — no dedicated tally of skipped elements exists (`stats` has only
`total`, `in_campus`, `filtered_out`). -/
theorem missing_coords_counterexample :
    (process_elements [noCoordsWay] rectPoly).2.total = 1 ∧
      (process_elements [noCoordsWay] rectPoly).2.in_campus = 0 ∧
      (process_elements [noCoordsWay] rectPoly).2.filtered_out = 0 ∧
      (process_elements [noCoordsWay] rectPoly).1 = [] := by
  refine ⟨rfl, rfl, rfl, rfl⟩

/-- Claim C6 (amended): an element without resolvable coordinates is skipped
entirely — it contributes nothing to the output POIs (processing a list
gives the same POIs as processing only its coordinate-resolvable elements)
and is counted neither in `in_campus` nor in `filtered_out`; it is counted
only by `total`, so the number of skipped elements is recoverable from the
statistics as `total - in_campus - filtered_out`, but no dedicated counter
for them exists. -/
theorem missing_coords_amended (els : List OsmElement) (poly : List Pt) :
    (process_elements els poly).2.total = els.length ∧
      (process_elements els poly).2.in_campus + (process_elements els poly).2.filtered_out +
          els.countP (fun e => !hasCoords e) = els.length ∧
      (process_elements els poly).1 = (process_elements (els.filter hasCoords) poly).1 := by
  refine ⟨?_, ?_, ?_⟩
  · simpa using foldl_stats_total poly els ([], ⟨0, 0, 0⟩)
  · have hc : els.countP hasCoords + els.countP (fun e => !hasCoords e) = els.length := by
      induction els with
      | nil => rfl
      | cons e t ih =>
        rw [List.countP_cons, List.countP_cons, List.length_cons]
        by_cases hce : hasCoords e <;> simp [hce] <;> omega
    have h := foldl_stats_inout poly els ([], ⟨0, 0, 0⟩)
    have h' := foldl_stats_total poly els ([], ⟨0, 0, 0⟩)
    simp at h h'
    unfold process_elements
    omega
  · exact foldl_pois_filter poly els [] ⟨0, 0, 0⟩

/-! ## Claim C5: pruning of unnamed elements -/

/-- Claim C5 (counterexample): a nameless in-polygon element whose
`building` tag is *present* with the empty string as value is dropped, even
though the claim says every unnamed non-parking element that has a building
tag is retained: the code tests Python truthiness of `tags.get("building")`,
which conflates an absent tag with an empty-valued one. -/
theorem unnamed_pruning_counterexample :
    tagGet? emptyBuildingNode.tags "building" = some "" ∧
      categorize_poi emptyBuildingNode.tags "" = "other" ∧
      (process_elements [emptyBuildingNode] rectPoly).1 = [] := by
  refine ⟨by decide, by decide, ?_⟩
  rw [process_single emptyBuildingNode rectPoly 1.56 103.64 rfl rect_pip_inside]
  decide

/-- Claim C5 (amended): for an in-polygon element, writing `name` for the
resolved display name and `cat` for its category: if `cat = "parking"` and
the name is empty the element is dropped; if `cat = "other"`, the name is
empty and the `building` tag is absent *or empty-valued* it is dropped; any
other element with an empty name is retained with the synthesized name
`"Unnamed <cat>"`. -/
theorem unnamed_pruning_amended (elem : OsmElement) (poly : List Pt) (lat lon : ℚ)
    (name : String)
    (hrc : resolveCoords elem = (some lat, some lon))
    (hpip : point_in_polygon (lon, lat) poly = true)
    (hname : resolvedName elem.tags = name) :
    (categorize_poi elem.tags name = "parking" → name = "" →
        (process_elements [elem] poly).1 = []) ∧
      (categorize_poi elem.tags name = "other" → name = "" →
          tagGetD elem.tags "building" = "" → (process_elements [elem] poly).1 = []) ∧
      (name = "" → categorize_poi elem.tags name ≠ "parking" →
          ¬(categorize_poi elem.tags name = "other" ∧ tagGetD elem.tags "building" = "") →
          (process_elements [elem] poly).1.map Poi.name =
              ["Unnamed " ++ categorize_poi elem.tags name] ∧
            (process_elements [elem] poly).1.map Poi.category =
              [categorize_poi elem.tags name]) := by
  rw [process_single elem poly lat lon hrc hpip]
  refine ⟨?_, ?_, ?_⟩
  · intro hcat hne
    show buildPois elem lat lon = []
    unfold buildPois
    rw [hname, if_pos ⟨hcat, hne⟩]
  · intro hcat hne hb
    show buildPois elem lat lon = []
    unfold buildPois
    rw [hname]
    have h1 : ¬(categorize_poi elem.tags name = "parking" ∧ name = "") := by
      intro hc
      rw [hcat] at hc
      exact absurd hc.1 (by decide)
    rw [if_neg h1, if_pos ⟨hcat, hne, hb⟩]
  · intro hne hcat1 hcat2
    show (buildPois elem lat lon).map Poi.name = _ ∧ (buildPois elem lat lon).map Poi.category = _
    unfold buildPois
    rw [hname, if_neg (fun hc => hcat1 hc.1), if_neg (fun hc => hcat2 ⟨hc.1, hc.2.2⟩)]
    simp [hne]

/-- Witness for C5 (amended): the unnamed parking node is dropped, and the
unnamed generic building node is retained as `"Unnamed building"`. -/
theorem unnamed_pruning_witness :
    (process_elements [unnamedParkingNode] rectPoly).1 = [] ∧
      (process_elements [unnamedBuildingNode] rectPoly).1.map Poi.name = ["Unnamed building"] := by
  constructor
  · exact (unnamed_pruning_amended unnamedParkingNode rectPoly 1.56 103.64 "" rfl
      rect_pip_inside (by decide)).1 (by decide) rfl
  · have h := (unnamed_pruning_amended unnamedBuildingNode rectPoly 1.56 103.64 "" rfl
      rect_pip_inside (by decide)).2.2 rfl (by decide) (by decide)
    have hb : categorize_poi unnamedBuildingNode.tags "" = "building" := by decide
    rw [hb] at h
    exact h.1


theorem pipStep_inside (x y : ℚ) (p1 p2 : Pt) (st : PipSt) :
    (pipStep x y p1 p2 st).inside = (flipEdge x y (p1, p2) ^^ st.inside) := by
  unfold pipStep flipEdge
  by_cases h1 : y > min p1.2 p2.2
  · by_cases h2 : y ≤ max p1.2 p2.2
    · by_cases hyy : p1.2 = p2.2
      · exfalso
        rw [hyy] at h1 h2
        simp at h1 h2
        linarith
      · by_cases h3 : x ≤ max p1.1 p2.1
        · simp only [if_pos h1, if_pos h2, if_pos h3, if_pos (show p1.2 ≠ p2.2 from hyy)]
          by_cases h4 : p1.1 = p2.1
          · have h3x : x ≤ p2.1 := by
              rw [h4] at h3
              simpa using h3
            simp [h4, h1, h2, h3x, hyy, Bool.xor_comm]
          · simp only [if_neg h4]
            by_cases h5 : x ≤ (y - p1.2) * (p2.1 - p1.1) / (p2.2 - p1.2) + p1.1
            · simp [h5, h1, h2, h3, h4, hyy, Bool.xor_comm]
            · simp [h5, h1, h2, h3, h4, hyy]
        · simp [h1, h2, h3]
    · simp [h1, h2]
  · simp [h1]

theorem odd_add_ite (b : Bool) (n : ℕ) :
    decide (Odd (n + if b then 1 else 0)) = (b ^^ decide (Odd n)) := by
  cases b
  · simp
  · simp only [if_pos rfl, Bool.true_xor]
    by_cases h : Odd n
    · simp [h, Nat.odd_add_one, Nat.not_even_iff_odd]
    · simp [h, Nat.odd_add_one, Nat.even_iff_not_odd.mpr h]

theorem pipWalk_inside (x y : ℚ) (l : List Pt) (p1 : Pt) (st : PipSt) :
    (pipWalk x y l p1 st).inside =
      (decide (Odd ((walkPairs p1 l).countP (flipEdge x y))) ^^ st.inside) := by
  induction l generalizing p1 st with
  | nil => simp [pipWalk, walkPairs]
  | cons b t ih =>
    rw [pipWalk, ih, walkPairs, List.countP_cons, pipStep_inside]
    have hh := odd_add_ite (flipEdge x y (p1, b)) ((walkPairs b t).countP (flipEdge x y))
    rw [hh]
    cases flipEdge x y (p1, b) <;>
      cases decide (Odd ((walkPairs b t).countP (flipEdge x y))) <;> cases st.inside <;> rfl

theorem pip_parity (p : Pt) (vs : List Pt) :
    point_in_polygon p vs = decide (Odd ((cycEdges vs).countP (flipEdge p.1 p.2))) := by
  match vs with
  | [] => simp [point_in_polygon, pipRun, cycEdges]
  | v0 :: rest =>
    rw [point_in_polygon, pipRun, pipWalk_inside, cycEdges]
    simp

theorem walkPairs_length (a : Pt) (l : List Pt) : (walkPairs a l).length = l.length := by
  induction l generalizing a with
  | nil => rfl
  | cons b t ih => simp [walkPairs, ih]

theorem walkPairs_getElem (a : Pt) (l : List Pt) (k : ℕ) (hk : k < l.length)
    (hk2 : k < (walkPairs a l).length) (hk3 : k < (a :: l).length) :
    (walkPairs a l)[k] = ((a :: l)[k], l[k]) := by
  induction l generalizing a k with
  | nil => exact absurd hk (by simp)
  | cons b t ih =>
    match k with
    | 0 => rfl
    | k + 1 =>
      have h1 : k < t.length := by simpa using hk
      simp only [walkPairs, List.getElem_cons_succ]
      exact ih b k h1 (by rw [walkPairs_length]; exact h1) (by simp; omega)

theorem nvtx_mod (vs : List Pt) (k : ℕ) : nvtx vs (k % vs.length) = nvtx vs k := by
  unfold nvtx
  rw [Nat.mod_mod]

theorem nvtx_eq_getElem (vs : List Pt) (k : ℕ) (hk : k < vs.length) :
    nvtx vs k = vs[k] := by
  unfold nvtx
  rw [Nat.mod_eq_of_lt hk, List.getD_eq_getElem vs (0, 0) hk]

theorem cycEdges_eq_map (vs : List Pt) :
    cycEdges vs = (List.range vs.length).map (edgeI vs) := by
  match vs with
  | [] => rfl
  | v0 :: rest =>
    apply List.ext_get
    · simp [cycEdges, walkPairs_length]
    intro k h1 h2
    simp only [List.get_eq_getElem]
    have hk : k < (v0 :: rest).length := by
      simpa [cycEdges, walkPairs_length] using h1
    have hkr : k < (rest ++ [v0]).length := by
      simpa using hk
    have hkk : k < rest.length + 1 := by simpa using hk
    have hw : k < (walkPairs v0 (rest ++ [v0])).length := by
      rw [walkPairs_length]; exact hkr
    have hm : k < (List.map (edgeI (v0 :: rest)) (List.range (v0 :: rest).length)).length := by
      simpa using hk
    have hvcons : k < (v0 :: (rest ++ [v0])).length := by
      simp only [List.length_cons, List.length_append] at *
      omega
    have happ : k < ((v0 :: rest) ++ [v0]).length := by
      simp only [List.length_cons, List.length_append] at *
      omega
    show (walkPairs v0 (rest ++ [v0]))[k] =
      (List.map (edgeI (v0 :: rest)) (List.range (v0 :: rest).length))[k]
    rw [walkPairs_getElem v0 (rest ++ [v0]) k hkr hw hvcons]
    rw [List.getElem_map, List.getElem_range]
    unfold edgeI
    have hc1 : (v0 :: (rest ++ [v0]))[k] = nvtx (v0 :: rest) k := by
      rw [nvtx_eq_getElem _ k hk]
      show ((v0 :: rest) ++ [v0])[k] = (v0 :: rest)[k]
      rw [List.getElem_append_left hk]
    have hc2 : (rest ++ [v0])[k] = nvtx (v0 :: rest) (k + 1) := by
      by_cases hend : k < rest.length
      · rw [List.getElem_append_left hend]
        rw [nvtx_eq_getElem _ (k + 1) (by simp; omega)]
        simp
      · have hkeq : k = rest.length := by
          simp at hk
          omega
        have hmod : (k + 1) % (v0 :: rest).length = 0 := by
          simp [hkeq]
        rw [List.getElem_append_right (by omega)]
        unfold nvtx
        rw [hmod]
        simp [hkeq]
    rw [hc1, hc2]

theorem step_updown (y : ℚ) (a b : Pt) :
    ((if decide (a.2 < y ∧ y ≤ b.2) = true then (1 : ℤ) else 0) -
      (if decide (b.2 < y ∧ y ≤ a.2) = true then (1 : ℤ) else 0)) =
    (if y ≤ b.2 then (1 : ℤ) else 0) - (if y ≤ a.2 then (1 : ℤ) else 0) := by
  rcases le_or_lt y a.2 with ha | ha <;> rcases le_or_lt y b.2 with hb | hb
  · simp [not_lt.mpr ha, not_lt.mpr hb, ha, hb]
  · simp [not_lt.mpr ha, not_le.mpr hb, ha, hb]
  · simp [not_le.mpr ha, not_lt.mpr hb, ha, hb]
  · simp [not_le.mpr ha, not_le.mpr hb, ha, hb]

theorem walk_updown (y : ℚ) (l : List Pt) (a : Pt) :
    (((walkPairs a l).countP (fun e => decide (e.1.2 < y ∧ y ≤ e.2.2)) : ℤ) -
      ((walkPairs a l).countP (fun e => decide (e.2.2 < y ∧ y ≤ e.1.2)) : ℤ)) =
    (if y ≤ (l.getLastD a).2 then (1 : ℤ) else 0) - (if y ≤ a.2 then (1 : ℤ) else 0) := by
  induction l generalizing a with
  | nil => simp [walkPairs]
  | cons b t ih =>
    have hstep := step_updown y a b
    have hih := ih b
    rw [show walkPairs a (b :: t) = (a, b) :: walkPairs b t from rfl,
      List.countP_cons, List.countP_cons, List.getLastD_cons]
    push_cast
    linarith [hstep, hih]

theorem cyc_updown (y : ℚ) (vs : List Pt) :
    ((cycEdges vs).countP (fun e => decide (e.1.2 < y ∧ y ≤ e.2.2)) : ℤ) =
      ((cycEdges vs).countP (fun e => decide (e.2.2 < y ∧ y ≤ e.1.2)) : ℤ) := by
  match vs with
  | [] => rfl
  | v0 :: rest =>
    have h := walk_updown y (rest ++ [v0]) v0
    rw [List.getLastD_concat] at h
    rw [show cycEdges (v0 :: rest) = walkPairs v0 (rest ++ [v0]) from rfl]
    linarith [h]

theorem flip_up (x y : ℚ) (a b : Pt) (h1 : a.2 < y) (h2 : y ≤ b.2) :
    flipEdge x y (a, b) = decide (x ≤ xInter (a, b) y) ∧
      (0 ≤ cross (b - a) ((x, y) - a) ↔ x ≤ xInter (a, b) y) := by
  have hD : 0 < b.2 - a.2 := by linarith
  have hiff : 0 ≤ cross (b - a) ((x, y) - a) ↔ x ≤ xInter (a, b) y := by
    unfold cross xInter
    simp only [Prod.fst_sub, Prod.snd_sub]
    show 0 ≤ (b.1 - a.1) * (y - a.2) - (b.2 - a.2) * (x - a.1) ↔
      x ≤ (y - a.2) * (b.1 - a.1) / (b.2 - a.2) + a.1
    rw [← sub_le_iff_le_add, le_div_iff₀ hD]
    constructor
    · intro h
      nlinarith
    · intro h
      nlinarith
  have hximax : xInter (a, b) y ≤ max a.1 b.1 := by
    unfold xInter
    rcases le_total a.1 b.1 with hab | hab
    · rw [max_eq_right hab]
      show (y - a.2) * (b.1 - a.1) / (b.2 - a.2) + a.1 ≤ b.1
      rw [← le_sub_iff_add_le, div_le_iff₀ hD]
      nlinarith
    · rw [max_eq_left hab]
      show (y - a.2) * (b.1 - a.1) / (b.2 - a.2) + a.1 ≤ a.1
      rw [← le_sub_iff_add_le, div_le_iff₀ hD]
      nlinarith
  refine ⟨?_, hiff⟩
  unfold flipEdge
  rw [decide_eq_decide]
  show min a.2 b.2 < y ∧ y ≤ max a.2 b.2 ∧ x ≤ max a.1 b.1 ∧
      (a.1 = b.1 ∨ x ≤ (y - a.2) * (b.1 - a.1) / (b.2 - a.2) + a.1) ↔ x ≤ xInter (a, b) y
  constructor
  · rintro ⟨-, -, hxm, hd | hxi⟩
    · unfold xInter
      rw [hd] at hxm ⊢
      simp only [sub_self, mul_zero, zero_div, zero_add]
      simpa using hxm
    · exact hxi
  · intro hxi
    exact ⟨lt_of_le_of_lt (min_le_left _ _) h1, le_trans h2 (le_max_right _ _),
      le_trans hxi hximax, Or.inr hxi⟩

theorem flip_down (x y : ℚ) (a b : Pt) (h1 : b.2 < y) (h2 : y ≤ a.2) :
    flipEdge x y (a, b) = decide (x ≤ xInter (a, b) y) ∧
      (cross (b - a) ((x, y) - a) ≤ 0 ↔ x ≤ xInter (a, b) y) := by
  have hD : b.2 - a.2 < 0 := by linarith
  have hiff : cross (b - a) ((x, y) - a) ≤ 0 ↔ x ≤ xInter (a, b) y := by
    unfold cross xInter
    simp only [Prod.fst_sub, Prod.snd_sub]
    show (b.1 - a.1) * (y - a.2) - (b.2 - a.2) * (x - a.1) ≤ 0 ↔
      x ≤ (y - a.2) * (b.1 - a.1) / (b.2 - a.2) + a.1
    rw [← sub_le_iff_le_add, le_div_iff_of_neg hD]
    constructor
    · intro h
      nlinarith
    · intro h
      nlinarith
  have hximax : xInter (a, b) y ≤ max a.1 b.1 := by
    unfold xInter
    rcases le_total a.1 b.1 with hab | hab
    · rw [max_eq_right hab]
      show (y - a.2) * (b.1 - a.1) / (b.2 - a.2) + a.1 ≤ b.1
      rw [← le_sub_iff_add_le, div_le_iff_of_neg hD]
      nlinarith
    · rw [max_eq_left hab]
      show (y - a.2) * (b.1 - a.1) / (b.2 - a.2) + a.1 ≤ a.1
      rw [← le_sub_iff_add_le, div_le_iff_of_neg hD]
      nlinarith
  refine ⟨?_, hiff⟩
  unfold flipEdge
  rw [decide_eq_decide]
  show min a.2 b.2 < y ∧ y ≤ max a.2 b.2 ∧ x ≤ max a.1 b.1 ∧
      (a.1 = b.1 ∨ x ≤ (y - a.2) * (b.1 - a.1) / (b.2 - a.2) + a.1) ↔ x ≤ xInter (a, b) y
  constructor
  · rintro ⟨-, -, hxm, hd | hxi⟩
    · unfold xInter
      rw [hd] at hxm ⊢
      simp only [sub_self, mul_zero, zero_div, zero_add]
      simpa using hxm
    · exact hxi
  · intro hxi
    exact ⟨lt_of_le_of_lt (min_le_right _ _) h1, le_trans h2 (le_max_left _ _),
      le_trans hxi hximax, Or.inr hxi⟩

theorem flip_nocross (x y : ℚ) (a b : Pt)
    (h : ¬(min a.2 b.2 < y ∧ y ≤ max a.2 b.2)) : flipEdge x y (a, b) = false := by
  unfold flipEdge
  apply decide_eq_false
  rintro ⟨hm, hM, -⟩
  exact h ⟨hm, hM⟩

theorem crossAt_affine (vs : List Pt) (i : ℕ) (w w' y : ℚ) :
    crossAt vs i (w, y) - crossAt vs i (w', y) =
      -((nvtx vs (i + 1)).2 - (nvtx vs i).2) * (w - w') := by
  unfold crossAt cross
  simp only [Prod.fst_sub, Prod.snd_sub]
  ring

theorem crossAt_xInter_self (vs : List Pt) (i : ℕ) (y : ℚ)
    (hD : (nvtx vs i).2 ≠ (nvtx vs (i + 1)).2) :
    crossAt vs i (xInter (edgeI vs i) y, y) = 0 := by
  unfold crossAt cross xInter edgeI
  simp only [Prod.fst_sub, Prod.snd_sub]
  have hne : (nvtx vs (i + 1)).2 - (nvtx vs i).2 ≠ 0 := sub_ne_zero.mpr (Ne.symm hD)
  field_simp
  ring

theorem crossAt_xInter_comb (vs : List Pt) (k j : ℕ) (y : ℚ)
    (hD : (nvtx vs j).2 ≠ (nvtx vs (j + 1)).2) :
    crossAt vs k (xInter (edgeI vs j) y, y) * ((nvtx vs (j + 1)).2 - (nvtx vs j).2) =
      ((nvtx vs (j + 1)).2 - y) * crossAt vs k (nvtx vs j) +
        (y - (nvtx vs j).2) * crossAt vs k (nvtx vs (j + 1)) := by
  unfold crossAt cross xInter edgeI
  simp only [Prod.fst_sub, Prod.snd_sub]
  have hne : (nvtx vs (j + 1)).2 - (nvtx vs j).2 ≠ 0 := sub_ne_zero.mpr (Ne.symm hD)
  field_simp
  ring

theorem crossAt_self_vtx (vs : List Pt) (i : ℕ) : crossAt vs i (nvtx vs i) = 0 := by
  unfold crossAt cross
  simp only [Prod.fst_sub, Prod.snd_sub]
  ring

theorem crossAt_next_vtx (vs : List Pt) (i : ℕ) : crossAt vs i (nvtx vs (i + 1)) = 0 := by
  unfold crossAt cross
  simp only [Prod.fst_sub, Prod.snd_sub]
  ring

theorem convexCCW_weak (vs : List Pt) (hc : ConvexCCW vs) :
    ∀ i < vs.length, ∀ j < vs.length, 0 ≤ crossAt vs i (nvtx vs j) := by
  intro i hi j hj
  by_cases h1 : j = i
  · subst h1
    rw [crossAt_self_vtx]
  · by_cases h2 : j = (i + 1) % vs.length
    · subst h2
      rw [nvtx_mod, crossAt_next_vtx]
    · exact le_of_lt (hc i hi j hj h1 h2)

theorem succ_mod_inj (n i j : ℕ) (hi : i < n) (hj : j < n)
    (h : (i + 1) % n = (j + 1) % n) : i = j := by
  rcases Nat.lt_or_ge (i + 1) n with h1 | h1 <;> rcases Nat.lt_or_ge (j + 1) n with h2 | h2
  · rw [Nat.mod_eq_of_lt h1, Nat.mod_eq_of_lt h2] at h
    omega
  · have hjn : j + 1 = n := by omega
    rw [Nat.mod_eq_of_lt h1, hjn, Nat.mod_self] at h
    omega
  · have hin : i + 1 = n := by omega
    rw [Nat.mod_eq_of_lt h2, hin, Nat.mod_self] at h
    omega
  · omega

/-- Any boundary point of a crossing edge lies weakly left of every edge of
a CCW strictly convex polygon. -/
theorem bdry_nonneg (vs : List Pt) (y : ℚ) (hc : ConvexCCW vs)
    (k : ℕ) (hk : k < vs.length) (j : ℕ) (hj : j < vs.length)
    (hcrs : upAt vs y j ∨ downAt vs y j) :
    0 ≤ crossAt vs k (xInter (edgeI vs j) y, y) := by
  have hw1 : 0 ≤ crossAt vs k (nvtx vs j) := convexCCW_weak vs hc k hk j hj
  have hw2 : 0 ≤ crossAt vs k (nvtx vs (j + 1)) := by
    rw [← nvtx_mod]
    exact convexCCW_weak vs hc k hk ((j + 1) % vs.length)
      (Nat.mod_lt _ (by omega))
  rcases hcrs with ⟨ha, hb⟩ | ⟨hb, ha⟩
  · have hD : (nvtx vs j).2 < (nvtx vs (j + 1)).2 := by linarith
    have hcomb := crossAt_xInter_comb vs k j y (ne_of_lt hD)
    nlinarith [hcomb]
  · have hD : (nvtx vs (j + 1)).2 < (nvtx vs j).2 := by linarith
    have hcomb := crossAt_xInter_comb vs k j y (ne_of_gt hD)
    nlinarith [hcomb]

/-- At most one edge of a CCW strictly convex polygon crosses a given height
going up. -/
theorem up_unique (vs : List Pt) (y : ℚ) (hc : ConvexCCW vs)
    (i j : ℕ) (hi : i < vs.length) (hj : j < vs.length)
    (hui : upAt vs y i) (huj : upAt vs y j) : i = j := by
  by_contra hne
  obtain ⟨hia, hib⟩ := hui
  obtain ⟨hja, hjb⟩ := huj
  have hDi : (nvtx vs i).2 < (nvtx vs (i + 1)).2 := by linarith
  have hDj : (nvtx vs j).2 < (nvtx vs (j + 1)).2 := by linarith
  -- the two intercepts coincide
  have hb1 : 0 ≤ crossAt vs i (xInter (edgeI vs j) y, y) :=
    bdry_nonneg vs y hc i hi j hj (Or.inl ⟨hja, hjb⟩)
  have hb2 : 0 ≤ crossAt vs j (xInter (edgeI vs i) y, y) :=
    bdry_nonneg vs y hc j hj i hi (Or.inl ⟨hia, hib⟩)
  have hz1 : crossAt vs i (xInter (edgeI vs i) y, y) = 0 :=
    crossAt_xInter_self vs i y (ne_of_lt hDi)
  have hz2 : crossAt vs j (xInter (edgeI vs j) y, y) = 0 :=
    crossAt_xInter_self vs j y (ne_of_lt hDj)
  have haf1 := crossAt_affine vs i (xInter (edgeI vs j) y) (xInter (edgeI vs i) y) y
  have haf2 := crossAt_affine vs j (xInter (edgeI vs i) y) (xInter (edgeI vs j) y) y
  have hle1 : xInter (edgeI vs j) y ≤ xInter (edgeI vs i) y := by nlinarith
  have hle2 : xInter (edgeI vs i) y ≤ xInter (edgeI vs j) y := by nlinarith
  have hxeq : xInter (edgeI vs i) y = xInter (edgeI vs j) y := le_antisymm hle2 hle1
  -- hence edge i vanishes on the crossing point of edge j
  have hfq : crossAt vs i (xInter (edgeI vs j) y, y) = 0 := by
    rw [← hxeq, hz1]
  have hcomb := crossAt_xInter_comb vs i j y (ne_of_lt hDj)
  have hw1 : 0 ≤ crossAt vs i (nvtx vs j) := convexCCW_weak vs hc i hi j hj
  have hw2 : 0 ≤ crossAt vs i (nvtx vs (j + 1)) := by
    rw [← nvtx_mod]
    exact convexCCW_weak vs hc i hi ((j + 1) % vs.length) (Nat.mod_lt _ (by omega))
  have hfd : crossAt vs i (nvtx vs (j + 1)) = 0 := by nlinarith
  -- strict convexity forces the index of that vertex to be i or i+1
  have hcase : (j + 1) % vs.length = i ∨ (j + 1) % vs.length = (i + 1) % vs.length := by
    by_contra hno
    push_neg at hno
    have := hc i hi ((j + 1) % vs.length) (Nat.mod_lt _ (by omega)) hno.1 hno.2
    rw [nvtx_mod] at this
    linarith
  rcases hcase with hcs | hcs
  · have : nvtx vs (j + 1) = nvtx vs i := by
      rw [← nvtx_mod, hcs]
    rw [this] at hjb
    linarith
  · exact hne (succ_mod_inj vs.length j i hj hi hcs).symm

/-- At most one edge of a CCW strictly convex polygon crosses a given height
going down. -/
theorem down_unique (vs : List Pt) (y : ℚ) (hc : ConvexCCW vs)
    (i j : ℕ) (hi : i < vs.length) (hj : j < vs.length)
    (hui : downAt vs y i) (huj : downAt vs y j) : i = j := by
  by_contra hne
  obtain ⟨hib, hia⟩ := hui
  obtain ⟨hjb, hja⟩ := huj
  have hDi : (nvtx vs (i + 1)).2 < (nvtx vs i).2 := by linarith
  have hDj : (nvtx vs (j + 1)).2 < (nvtx vs j).2 := by linarith
  have hb1 : 0 ≤ crossAt vs i (xInter (edgeI vs j) y, y) :=
    bdry_nonneg vs y hc i hi j hj (Or.inr ⟨hjb, hja⟩)
  have hb2 : 0 ≤ crossAt vs j (xInter (edgeI vs i) y, y) :=
    bdry_nonneg vs y hc j hj i hi (Or.inr ⟨hib, hia⟩)
  have hz1 : crossAt vs i (xInter (edgeI vs i) y, y) = 0 :=
    crossAt_xInter_self vs i y (ne_of_gt hDi)
  have hz2 : crossAt vs j (xInter (edgeI vs j) y, y) = 0 :=
    crossAt_xInter_self vs j y (ne_of_gt hDj)
  have haf1 := crossAt_affine vs i (xInter (edgeI vs j) y) (xInter (edgeI vs i) y) y
  have haf2 := crossAt_affine vs j (xInter (edgeI vs i) y) (xInter (edgeI vs j) y) y
  have hle1 : xInter (edgeI vs i) y ≤ xInter (edgeI vs j) y := by nlinarith
  have hle2 : xInter (edgeI vs j) y ≤ xInter (edgeI vs i) y := by nlinarith
  have hxeq : xInter (edgeI vs i) y = xInter (edgeI vs j) y := le_antisymm hle1 hle2
  have hfq : crossAt vs i (xInter (edgeI vs j) y, y) = 0 := by
    rw [← hxeq, hz1]
  have hcomb := crossAt_xInter_comb vs i j y (ne_of_gt hDj)
  have hw1 : 0 ≤ crossAt vs i (nvtx vs j) := convexCCW_weak vs hc i hi j hj
  have hw2 : 0 ≤ crossAt vs i (nvtx vs (j + 1)) := by
    rw [← nvtx_mod]
    exact convexCCW_weak vs hc i hi ((j + 1) % vs.length) (Nat.mod_lt _ (by omega))
  have hfc : crossAt vs i (nvtx vs j) = 0 := by nlinarith
  have hcase : j = i ∨ j = (i + 1) % vs.length := by
    by_contra hno
    push_neg at hno
    have := hc i hi j hj hno.1 hno.2
    linarith
  rcases hcase with hcs | hcs
  · exact hne hcs.symm
  · have : nvtx vs j = nvtx vs (i + 1) := by
      rw [hcs, nvtx_mod]
    rw [this] at hja
    linarith

/-- A finite index range has a height-minimising index. -/
theorem exists_min_on_range (n : ℕ) (hn : 0 < n) (f : ℕ → ℚ) :
    ∃ m < n, ∀ j < n, f m ≤ f j := by
  induction n with
  | zero => omega
  | succ k ih =>
    rcases Nat.eq_zero_or_pos k with hk | hk
    · subst hk
      exact ⟨0, by omega, by intro j hj; interval_cases j; exact le_rfl⟩
    · obtain ⟨m, hm, hmin⟩ := ih hk
      rcases le_total (f m) (f k) with hle | hle
      · exact ⟨m, by omega, fun j hj => by
          rcases Nat.lt_or_ge j k with h | h
          · exact hmin j h
          · have : j = k := by omega
            subst this; exact hle⟩
      · exact ⟨k, by omega, fun j hj => by
          rcases Nat.lt_or_ge j k with h | h
          · exact le_trans hle (hmin j h)
          · have : j = k := by omega
            subst this; exact le_rfl⟩

/-- A finite index range has a height-maximising index. -/
theorem exists_max_on_range (n : ℕ) (hn : 0 < n) (f : ℕ → ℚ) :
    ∃ m < n, ∀ j < n, f j ≤ f m := by
  obtain ⟨m, hm, hmin⟩ := exists_min_on_range n hn (fun i => -f i)
  exact ⟨m, hm, fun j hj => by have := hmin j hj; simpa using this⟩

/-- The previous index of `m` (cyclically) and its successor facts. -/
theorem prev_succ (n m : ℕ) (hn : 0 < n) (hm : m < n) :
    ((m + (n - 1)) % n + 1) % n = m := by
  rw [Nat.mod_add_mod]
  have : m + (n - 1) + 1 = m + n := by omega
  rw [this, Nat.add_mod_right, Nat.mod_eq_of_lt hm]

/-- A point strictly inside every edge halfplane of a CCW strictly convex
polygon has some vertex strictly below it. -/
theorem inside_has_below (vs : List Pt) (hc : ConvexCCW vs) (hn : 3 ≤ vs.length)
    (p : Pt) (hin : ∀ i < vs.length, 0 < crossAt vs i p) :
    ∃ i < vs.length, (nvtx vs i).2 < p.2 := by
  by_contra hno
  push_neg at hno
  obtain ⟨m, hm, hmin⟩ := exists_min_on_range vs.length (by omega)
    (fun i => (nvtx vs i).2)
  set mp := (m + (vs.length - 1)) % vs.length with hmp
  have hmp_lt : mp < vs.length := Nat.mod_lt _ (by omega)
  have hsucc : (mp + 1) % vs.length = m := prev_succ vs.length m (by omega) hm
  have hb : nvtx vs (mp + 1) = nvtx vs m := by
    rw [← nvtx_mod, hsucc]
  -- the three consecutive vertices around the minimum
  have h1 : 0 < crossAt vs mp p := hin mp hmp_lt
  have h2 : 0 < crossAt vs m p := hin m hm
  -- strict convexity at the incoming edge, evaluated at the vertex after m
  have hne1 : (m + 1) % vs.length ≠ mp := by
    intro h
    have h' : ((m + 1) % vs.length + 1) % vs.length = (mp + 1) % vs.length := by rw [h]
    rw [Nat.mod_add_mod, hsucc] at h'
    have hdvd : vs.length ∣ (m + 2) - m := by
      have : m % vs.length = m := Nat.mod_eq_of_lt hm
      have hmod : m ≡ m + 2 [MOD vs.length] := by
        unfold Nat.ModEq
        rw [this, h']
      exact (Nat.modEq_iff_dvd' (by omega)).mp hmod
    have : (m + 2) - m = 2 := by omega
    rw [this] at hdvd
    have := Nat.le_of_dvd (by omega) hdvd
    omega
  have hne2 : (m + 1) % vs.length ≠ (mp + 1) % vs.length := by
    rw [hsucc]
    intro h
    have hdvd : vs.length ∣ (m + 1) - m := by
      have : m % vs.length = m := Nat.mod_eq_of_lt hm
      have hmod : m ≡ m + 1 [MOD vs.length] := by
        unfold Nat.ModEq
        rw [this, h]
      exact (Nat.modEq_iff_dvd' (by omega)).mp hmod
    have : (m + 1) - m = 1 := by omega
    rw [this] at hdvd
    have := Nat.le_of_dvd (by omega) hdvd
    omega
  have h3 : 0 < crossAt vs mp (nvtx vs (m + 1)) := by
    rw [← nvtx_mod]
    exact hc mp hmp_lt ((m + 1) % vs.length) (Nat.mod_lt _ (by omega)) hne1 hne2
  -- unfold to coordinates
  set a := nvtx vs mp with ha
  set b := nvtx vs m with hbb
  set c := nvtx vs (m + 1) with hcc
  have hu2 : b.2 ≤ a.2 := hmin mp hmp_lt
  have hv2 : b.2 ≤ c.2 := by
    have := hmin ((m + 1) % vs.length) (Nat.mod_lt _ (by omega))
    rwa [nvtx_mod] at this
  have hq2 : p.2 ≤ b.2 := hno m hm
  rw [crossAt, hb] at h1 h3
  rw [crossAt] at h2
  rw [← hbb, ← hcc] at h2
  rw [← ha] at h1 h3
  simp only [cross, Prod.fst_sub, Prod.snd_sub] at h1 h2 h3
  rcases eq_or_lt_of_le hv2 with hv | hv
  · rcases eq_or_lt_of_le hu2 with hu | hu
    · rw [← hv, ← hu] at h3
      nlinarith
    · nlinarith [mul_pos (sub_pos.mpr hu) h2, mul_nonneg (sub_nonneg.mpr hq2) h3.le]
  · nlinarith [mul_pos (sub_pos.mpr hv) h1, mul_nonneg (sub_nonneg.mpr hu2) h2.le,
      mul_nonneg (sub_nonneg.mpr hq2) h3.le]

/-- A point strictly inside every edge halfplane of a CCW strictly convex
polygon has some vertex at or above it. -/
theorem inside_has_above (vs : List Pt) (hc : ConvexCCW vs) (hn : 3 ≤ vs.length)
    (p : Pt) (hin : ∀ i < vs.length, 0 < crossAt vs i p) :
    ∃ i < vs.length, p.2 ≤ (nvtx vs i).2 := by
  by_contra hno
  push_neg at hno
  obtain ⟨m, hm, hmax⟩ := exists_max_on_range vs.length (by omega)
    (fun i => (nvtx vs i).2)
  set mp := (m + (vs.length - 1)) % vs.length with hmp
  have hmp_lt : mp < vs.length := Nat.mod_lt _ (by omega)
  have hsucc : (mp + 1) % vs.length = m := prev_succ vs.length m (by omega) hm
  have hb : nvtx vs (mp + 1) = nvtx vs m := by
    rw [← nvtx_mod, hsucc]
  have h1 : 0 < crossAt vs mp p := hin mp hmp_lt
  have h2 : 0 < crossAt vs m p := hin m hm
  have hne1 : (m + 1) % vs.length ≠ mp := by
    intro h
    have h' : ((m + 1) % vs.length + 1) % vs.length = (mp + 1) % vs.length := by rw [h]
    rw [Nat.mod_add_mod, hsucc] at h'
    have hdvd : vs.length ∣ (m + 2) - m := by
      have : m % vs.length = m := Nat.mod_eq_of_lt hm
      have hmod : m ≡ m + 2 [MOD vs.length] := by
        unfold Nat.ModEq
        rw [this, h']
      exact (Nat.modEq_iff_dvd' (by omega)).mp hmod
    have : (m + 2) - m = 2 := by omega
    rw [this] at hdvd
    have := Nat.le_of_dvd (by omega) hdvd
    omega
  have hne2 : (m + 1) % vs.length ≠ (mp + 1) % vs.length := by
    rw [hsucc]
    intro h
    have hdvd : vs.length ∣ (m + 1) - m := by
      have : m % vs.length = m := Nat.mod_eq_of_lt hm
      have hmod : m ≡ m + 1 [MOD vs.length] := by
        unfold Nat.ModEq
        rw [this, h]
      exact (Nat.modEq_iff_dvd' (by omega)).mp hmod
    have : (m + 1) - m = 1 := by omega
    rw [this] at hdvd
    have := Nat.le_of_dvd (by omega) hdvd
    omega
  have h3 : 0 < crossAt vs mp (nvtx vs (m + 1)) := by
    rw [← nvtx_mod]
    exact hc mp hmp_lt ((m + 1) % vs.length) (Nat.mod_lt _ (by omega)) hne1 hne2
  set a := nvtx vs mp with ha
  set b := nvtx vs m with hbb
  set c := nvtx vs (m + 1) with hcc
  have hu2 : a.2 ≤ b.2 := hmax mp hmp_lt
  have hv2 : c.2 ≤ b.2 := by
    have := hmax ((m + 1) % vs.length) (Nat.mod_lt _ (by omega))
    rwa [nvtx_mod] at this
  have hq2 : b.2 < p.2 := hno m hm
  rw [crossAt, hb] at h1 h3
  rw [crossAt] at h2
  rw [← hbb, ← hcc] at h2
  rw [← ha] at h1 h3
  simp only [cross, Prod.fst_sub, Prod.snd_sub] at h1 h2 h3
  nlinarith [mul_nonneg (sub_nonneg.mpr hv2) h1.le,
    mul_nonneg (sub_nonneg.mpr hu2) h2.le,
    mul_pos (sub_pos.mpr hq2) h3]

/-- `upAt` only depends on the index modulo the length. -/
theorem upAt_mod (vs : List Pt) (y : ℚ) (i : ℕ) :
    upAt vs y (i % vs.length) ↔ upAt vs y i := by
  unfold upAt
  rw [nvtx_mod]
  have : nvtx vs (i % vs.length + 1) = nvtx vs (i + 1) := by
    rw [← nvtx_mod, Nat.mod_add_mod, nvtx_mod]
  rw [this]

/-- `downAt` only depends on the index modulo the length. -/
theorem downAt_mod (vs : List Pt) (y : ℚ) (i : ℕ) :
    downAt vs y (i % vs.length) ↔ downAt vs y i := by
  unfold downAt
  rw [nvtx_mod]
  have : nvtx vs (i % vs.length + 1) = nvtx vs (i + 1) := by
    rw [← nvtx_mod, Nat.mod_add_mod, nvtx_mod]
  rw [this]

/-- Discrete intermediate value: a vertex strictly below `y` and one at or
above `y` force an upward crossing edge. -/
theorem exists_up (vs : List Pt) (y : ℚ) (k m : ℕ) (hk : k < vs.length)
    (hm : m < vs.length) (hbelow : (nvtx vs k).2 < y) (habove : y ≤ (nvtx vs m).2) :
    ∃ i < vs.length, upAt vs y i := by
  by_contra hno
  push_neg at hno
  have hstep : ∀ t : ℕ, (nvtx vs (k + t)).2 < y := by
    intro t
    induction t with
    | zero => simpa using hbelow
    | succ s ih =>
      have hni := hno ((k + s) % vs.length) (Nat.mod_lt _ (by omega))
      rw [upAt_mod] at hni
      unfold upAt at hni
      push_neg at hni
      have := hni ih
      have heq : nvtx vs (k + s + 1) = nvtx vs (k + (s + 1)) := by
        rw [Nat.add_assoc]
      rw [← heq]
      linarith
  rcases le_total k m with hkm | hkm
  · have := hstep (m - k)
    rw [show k + (m - k) = m from by omega] at this
    linarith
  · have := hstep (m + vs.length - k)
    rw [show k + (m + vs.length - k) = m + vs.length from by omega] at this
    rw [← nvtx_mod, Nat.add_mod_right, Nat.mod_eq_of_lt hm] at this
    linarith

/-- Discrete intermediate value: a vertex at or above `y` and one strictly
below `y` force a downward crossing edge. -/
theorem exists_down (vs : List Pt) (y : ℚ) (k m : ℕ) (hk : k < vs.length)
    (hm : m < vs.length) (hbelow : (nvtx vs k).2 < y) (habove : y ≤ (nvtx vs m).2) :
    ∃ i < vs.length, downAt vs y i := by
  by_contra hno
  push_neg at hno
  have hstep : ∀ t : ℕ, y ≤ (nvtx vs (m + t)).2 := by
    intro t
    induction t with
    | zero => simpa using habove
    | succ s ih =>
      have hni := hno ((m + s) % vs.length) (Nat.mod_lt _ (by omega))
      rw [downAt_mod] at hni
      unfold downAt at hni
      push_neg at hni
      have heq : nvtx vs (m + s + 1) = nvtx vs (m + (s + 1)) := by
        rw [Nat.add_assoc]
      by_contra hlt
      push_neg at hlt
      rw [← heq] at hlt
      have := hni hlt
      linarith
  rcases le_total m k with hmk | hmk
  · have := hstep (k - m)
    rw [show m + (k - m) = k from by omega] at this
    linarith
  · have := hstep (k + vs.length - m)
    rw [show m + (k + vs.length - m) = k + vs.length from by omega] at this
    rw [← nvtx_mod, Nat.add_mod_right, Nat.mod_eq_of_lt hk] at this
    linarith

/-- Counting a predicate supported on at most one element of a duplicate-free
list. -/
theorem countP_support_one (l : List ℕ) (hnd : l.Nodup) (p : ℕ → Bool) (u : ℕ)
    (h : ∀ i ∈ l, p i = true → i = u) :
    l.countP p = if p u = true then (if u ∈ l then 1 else 0) else 0 := by
  induction l with
  | nil => simp [List.countP_nil]
  | cons a t ih =>
    rw [List.countP_cons]
    have hnd' : t.Nodup := (List.nodup_cons.mp hnd).2
    have hna : a ∉ t := (List.nodup_cons.mp hnd).1
    have ih' := ih hnd' (fun i hi => h i (List.mem_cons_of_mem a hi))
    by_cases hpa : p a = true
    · have hau : a = u := h a (List.mem_cons_self a t) hpa
      subst hau
      rw [ih']
      simp [hpa, hna, List.mem_cons]
    · rw [ih']
      simp only [hpa, Bool.false_eq_true, if_false, Nat.add_zero]
      by_cases hpu : p u = true
      · have huna : u ≠ a := by
          intro h'
          rw [h'] at hpu
          exact hpa hpu
        simp [hpu, List.mem_cons, huna]
      · simp [hpu]

/-- Counting a predicate supported on at most two elements of a duplicate-free
list containing both. -/
theorem countP_support_two (l : List ℕ) (hnd : l.Nodup) (p : ℕ → Bool) (u d : ℕ)
    (hu : u ∈ l) (hd : d ∈ l) (hne : u ≠ d)
    (h : ∀ i ∈ l, p i = true → i = u ∨ i = d) :
    l.countP p = (if p u = true then 1 else 0) + (if p d = true then 1 else 0) := by
  induction l with
  | nil => simp at hu
  | cons a t ih =>
    rw [List.countP_cons]
    have hnd' : t.Nodup := (List.nodup_cons.mp hnd).2
    have hna : a ∉ t := (List.nodup_cons.mp hnd).1
    by_cases hau : a = u
    · subst hau
      have hdt : d ∈ t := by
        rcases List.mem_cons.mp hd with h' | h'
        · exact absurd h'.symm hne
        · exact h'
      have hone := countP_support_one t hnd' p d (fun i hi hpi => by
        rcases h i (List.mem_cons_of_mem a hi) hpi with h' | h'
        · exact absurd (h' ▸ hi) hna
        · exact h')
      rw [hone]
      by_cases hpa : p a = true <;> by_cases hpd : p d = true <;>
        simp [hpa, hpd, hdt, Nat.add_comm]
    · by_cases had : a = d
      · subst had
        have hut : u ∈ t := by
          rcases List.mem_cons.mp hu with h' | h'
          · exact absurd h' (fun h'' => hau h''.symm)
          · exact h'
        have hone := countP_support_one t hnd' p u (fun i hi hpi => by
          rcases h i (List.mem_cons_of_mem a hi) hpi with h' | h'
          · exact h'
          · exact absurd (h' ▸ hi) hna)
        rw [hone]
        by_cases hpa : p a = true <;> by_cases hpu : p u = true <;>
          simp [hpa, hpu, hut, Nat.add_comm]
      · have hut : u ∈ t := by
          rcases List.mem_cons.mp hu with h' | h'
          · exact absurd h' (fun h'' => hau h''.symm)
          · exact h'
        have hdt : d ∈ t := by
          rcases List.mem_cons.mp hd with h' | h'
          · exact absurd h' (fun h'' => had h''.symm)
          · exact h'
        have hpa : p a = false := by
          by_contra hf
          rw [Bool.not_eq_false] at hf
          rcases h a (List.mem_cons_self a t) hf with h' | h'
          · exact hau h'
          · exact had h'
        rw [hpa]
        simp only [Bool.false_eq_true, if_false, Nat.add_zero]
        exact ih hnd' hut hdt (fun i hi hpi => h i (List.mem_cons_of_mem a hi) hpi)

/-- The parity count of `point_in_polygon`, expressed over edge indices. -/
theorem pip_range (p : Pt) (vs : List Pt) :
    point_in_polygon p vs =
      decide (Odd ((List.range vs.length).countP
        (fun i => flipEdge p.1 p.2 (edgeI vs i)))) := by
  rw [pip_parity, cycEdges_eq_map, List.countP_map]
  rfl

/-- Upward and downward crossings are equinumerous, over edge indices. -/
theorem range_updown (vs : List Pt) (y : ℚ) :
    ((List.range vs.length).countP fun i => decide (upAt vs y i)) =
      ((List.range vs.length).countP fun i => decide (downAt vs y i)) := by
  have h := cyc_updown y vs
  rw [cycEdges_eq_map, List.countP_map, List.countP_map] at h
  have h' : ((List.range vs.length).countP
        ((fun e => decide (e.1.2 < y ∧ y ≤ e.2.2)) ∘ edgeI vs)) =
      ((List.range vs.length).countP
        ((fun e => decide (e.2.2 < y ∧ y ≤ e.1.2)) ∘ edgeI vs)) := by
    exact_mod_cast h
  have c1 : ((List.range vs.length).countP
        ((fun e => decide (e.1.2 < y ∧ y ≤ e.2.2)) ∘ edgeI vs)) =
      ((List.range vs.length).countP fun i => decide (upAt vs y i)) := by
    refine List.countP_congr ?_
    intro i hi
    simp only [Function.comp_apply, decide_eq_true_eq]
    exact Iff.rfl
  have c2 : ((List.range vs.length).countP
        ((fun e => decide (e.2.2 < y ∧ y ≤ e.1.2)) ∘ edgeI vs)) =
      ((List.range vs.length).countP fun i => decide (downAt vs y i)) := by
    refine List.countP_congr ?_
    intro i hi
    simp only [Function.comp_apply, decide_eq_true_eq]
    exact Iff.rfl
  rw [← c1, ← c2, h']

/-- Flip test on an upward-crossing edge, by index. -/
theorem flip_at_up (vs : List Pt) (x y : ℚ) (i : ℕ) (h : upAt vs y i) :
    flipEdge x y (edgeI vs i) = decide (x ≤ xInter (edgeI vs i) y) ∧
      (0 ≤ crossAt vs i (x, y) ↔ x ≤ xInter (edgeI vs i) y) :=
  flip_up x y (nvtx vs i) (nvtx vs (i + 1)) h.1 h.2

/-- Flip test on a downward-crossing edge, by index. -/
theorem flip_at_down (vs : List Pt) (x y : ℚ) (i : ℕ) (h : downAt vs y i) :
    flipEdge x y (edgeI vs i) = decide (x ≤ xInter (edgeI vs i) y) ∧
      (crossAt vs i (x, y) ≤ 0 ↔ x ≤ xInter (edgeI vs i) y) :=
  flip_down x y (nvtx vs i) (nvtx vs (i + 1)) h.1 h.2

/-- A non-crossing edge never flips the parity, by index. -/
theorem flip_at_none (vs : List Pt) (x y : ℚ) (i : ℕ)
    (h : ¬upAt vs y i) (h' : ¬downAt vs y i) :
    flipEdge x y (edgeI vs i) = false := by
  refine flip_nocross x y (nvtx vs i) (nvtx vs (i + 1)) ?_
  rintro ⟨hm, hM⟩
  rcases le_total (nvtx vs i).2 (nvtx vs (i + 1)).2 with hle | hle
  · rw [min_eq_left hle] at hm
    rw [max_eq_right hle] at hM
    exact h ⟨hm, hM⟩
  · rw [min_eq_right hle] at hm
    rw [max_eq_left hle] at hM
    exact h' ⟨hm, hM⟩

/-- An edge cannot cross both upward and downward. -/
theorem up_ne_down (vs : List Pt) (y : ℚ) (u d : ℕ)
    (hu : upAt vs y u) (hd : downAt vs y d) : u ≠ d := by
  intro h
  subst h
  obtain ⟨h1, h2⟩ := hu
  obtain ⟨h3, h4⟩ := hd
  linarith

/-- For a CCW polygon the downward intercept lies left of the upward one. -/
theorem xInter_order (vs : List Pt) (y : ℚ) (hc : ConvexCCW vs) (u d : ℕ)
    (hu' : u < vs.length) (hd' : d < vs.length) (hu : upAt vs y u) (hd : downAt vs y d) :
    xInter (edgeI vs d) y ≤ xInter (edgeI vs u) y := by
  have hb := bdry_nonneg vs y hc u hu' d hd' (Or.inr hd)
  exact ((flip_at_up vs (xInter (edgeI vs d) y) y u hu).2).mp hb

/-- Every point of the horizontal strip between the two intercepts lies weakly
left of every edge of the CCW polygon. -/
theorem strip_nonneg (vs : List Pt) (y : ℚ) (hc : ConvexCCW vs) (u d : ℕ)
    (hu' : u < vs.length) (hd' : d < vs.length) (hu : upAt vs y u) (hd : downAt vs y d)
    (x : ℚ) (hx0 : xInter (edgeI vs d) y ≤ x) (hx2 : x ≤ xInter (edgeI vs u) y)
    (k : ℕ) (hk : k < vs.length) : 0 ≤ crossAt vs k (x, y) := by
  have hAd : 0 ≤ crossAt vs k (xInter (edgeI vs d) y, y) :=
    bdry_nonneg vs y hc k hk d hd' (Or.inr hd)
  have hAu : 0 ≤ crossAt vs k (xInter (edgeI vs u) y, y) :=
    bdry_nonneg vs y hc k hk u hu' (Or.inl hu)
  rcases eq_or_lt_of_le hx0 with he | hx1
  · rw [← he]
    exact hAd
  have ha1 := crossAt_affine vs k x (xInter (edgeI vs d) y) y
  have ha2 := crossAt_affine vs k (xInter (edgeI vs u) y) (xInter (edgeI vs d) y) y
  have key : crossAt vs k (x, y) * (xInter (edgeI vs u) y - xInter (edgeI vs d) y) =
      crossAt vs k (xInter (edgeI vs d) y, y) * (xInter (edgeI vs u) y - x) +
        crossAt vs k (xInter (edgeI vs u) y, y) * (x - xInter (edgeI vs d) y) := by
    linear_combination (xInter (edgeI vs u) y - xInter (edgeI vs d) y) * ha1 -
      (x - xInter (edgeI vs d) y) * ha2
  nlinarith [mul_nonneg hAd (by linarith : (0:ℚ) ≤ xInter (edgeI vs u) y - x),
    mul_nonneg hAu (by linarith : (0:ℚ) ≤ x - xInter (edgeI vs d) y)]

/-- Ray casting is true strictly inside a CCW strictly convex polygon. -/
theorem pip_ccw_inside (vs : List Pt) (hc : ConvexCCW vs) (hn : 3 ≤ vs.length)
    (p : Pt) (hin : ∀ i < vs.length, 0 < crossAt vs i p) :
    point_in_polygon p vs = true := by
  obtain ⟨kb, hkb, hkb'⟩ := inside_has_below vs hc hn p hin
  obtain ⟨ka, hka, hka'⟩ := inside_has_above vs hc hn p hin
  obtain ⟨u, hu', hu⟩ := exists_up vs p.2 kb ka hkb hka hkb' hka'
  obtain ⟨d, hd', hd⟩ := exists_down vs p.2 kb ka hkb hka hkb' hka'
  have hune : u ≠ d := up_ne_down vs p.2 u d hu hd
  rw [pip_range]
  have hsupp : ∀ i ∈ List.range vs.length,
      flipEdge p.1 p.2 (edgeI vs i) = true → i = u ∨ i = d := by
    intro i hi hfi
    have hi' : i < vs.length := List.mem_range.mp hi
    by_cases hiu : upAt vs p.2 i
    · exact Or.inl (up_unique vs p.2 hc i u hi' hu' hiu hu)
    · by_cases hid : downAt vs p.2 i
      · exact Or.inr (down_unique vs p.2 hc i d hi' hd' hid hd)
      · rw [flip_at_none vs p.1 p.2 i hiu hid] at hfi
        exact absurd hfi (by simp)
  have hcount := countP_support_two (List.range vs.length) (List.nodup_range _)
    (fun i => flipEdge p.1 p.2 (edgeI vs i)) u d
    (List.mem_range.mpr hu') (List.mem_range.mpr hd') hune hsupp
  simp only [] at hcount
  have hfu : flipEdge p.1 p.2 (edgeI vs u) = true := by
    rw [(flip_at_up vs p.1 p.2 u hu).1, decide_eq_true_eq]
    exact ((flip_at_up vs p.1 p.2 u hu).2).mp (le_of_lt (hin u hu'))
  have hfd : flipEdge p.1 p.2 (edgeI vs d) = false := by
    rw [(flip_at_down vs p.1 p.2 d hd).1]
    apply decide_eq_false
    intro hle
    have := ((flip_at_down vs p.1 p.2 d hd).2).mpr hle
    have hpos := hin d hd'
    have : crossAt vs d p ≤ 0 := this
    linarith
  rw [hcount, if_pos hfu, if_neg (by simp [hfd])]
  norm_num [Nat.odd_iff]

/-- Ray casting is false strictly outside a CCW strictly convex polygon. -/
theorem pip_ccw_outside (vs : List Pt) (hc : ConvexCCW vs) (hn : 3 ≤ vs.length)
    (p : Pt) (i0 : ℕ) (hi0 : i0 < vs.length) (hout : crossAt vs i0 p < 0) :
    point_in_polygon p vs = false := by
  rw [pip_range]
  by_cases hup : ∃ i < vs.length, upAt vs p.2 i
  · obtain ⟨u, hu', hu⟩ := hup
    have hdown : ∃ i < vs.length, downAt vs p.2 i := by
      by_contra hno
      push_neg at hno
      have hz : ((List.range vs.length).countP fun i => decide (downAt vs p.2 i)) = 0 := by
        rw [List.countP_eq_zero]
        intro i hi
        simp only [decide_eq_true_eq]
        exact hno i (List.mem_range.mp hi)
      have hzz := range_updown vs p.2
      rw [hz] at hzz
      rw [List.countP_eq_zero] at hzz
      have := hzz u (List.mem_range.mpr hu')
      simp only [decide_eq_true_eq] at this
      exact this hu
    obtain ⟨d, hd', hd⟩ := hdown
    have hune : u ≠ d := up_ne_down vs p.2 u d hu hd
    have horder := xInter_order vs p.2 hc u d hu' hd' hu hd
    have hsupp : ∀ i ∈ List.range vs.length,
        flipEdge p.1 p.2 (edgeI vs i) = true → i = u ∨ i = d := by
      intro i hi hfi
      have hi' : i < vs.length := List.mem_range.mp hi
      by_cases hiu : upAt vs p.2 i
      · exact Or.inl (up_unique vs p.2 hc i u hi' hu' hiu hu)
      · by_cases hid : downAt vs p.2 i
        · exact Or.inr (down_unique vs p.2 hc i d hi' hd' hid hd)
        · rw [flip_at_none vs p.1 p.2 i hiu hid] at hfi
          exact absurd hfi (by simp)
    have hcount := countP_support_two (List.range vs.length) (List.nodup_range _)
      (fun i => flipEdge p.1 p.2 (edgeI vs i)) u d
      (List.mem_range.mpr hu') (List.mem_range.mpr hd') hune hsupp
    simp only [] at hcount
    have hiff : p.1 ≤ xInter (edgeI vs u) p.2 ↔ p.1 ≤ xInter (edgeI vs d) p.2 := by
      constructor
      · intro hxu
        by_contra hxd
        push_neg at hxd
        have hnn := strip_nonneg vs p.2 hc u d hu' hd' hu hd p.1 hxd.le hxu i0 hi0
        have : (0:ℚ) ≤ crossAt vs i0 p := hnn
        linarith
      · intro hxd
        exact le_trans hxd horder
    simp only [(flip_at_up vs p.1 p.2 u hu).1, (flip_at_down vs p.1 p.2 d hd).1] at hcount
    by_cases hx : p.1 ≤ xInter (edgeI vs u) p.2
    · have hx2 := hiff.mp hx
      rw [hcount, if_pos (decide_eq_true hx), if_pos (decide_eq_true hx2)]
      norm_num [Nat.odd_iff]
    · have hx2 : ¬p.1 ≤ xInter (edgeI vs d) p.2 := fun h => hx (hiff.mpr h)
      rw [hcount, if_neg (by simpa using hx), if_neg (by simpa using hx2)]
      norm_num [Nat.odd_iff]
  · push_neg at hup
    have hzu : ((List.range vs.length).countP fun i => decide (upAt vs p.2 i)) = 0 := by
      rw [List.countP_eq_zero]
      intro i hi
      simp only [decide_eq_true_eq]
      exact hup i (List.mem_range.mp hi)
    have hzd := range_updown vs p.2
    rw [hzu] at hzd
    have hzd' := List.countP_eq_zero.mp hzd.symm
    have hz : ((List.range vs.length).countP fun i => flipEdge p.1 p.2 (edgeI vs i)) = 0 := by
      rw [List.countP_eq_zero]
      intro i hi
      have hi' : i < vs.length := List.mem_range.mp hi
      have hnd : ¬downAt vs p.2 i := by
        have := hzd' i hi
        simpa using this
      rw [flip_at_none vs p.1 p.2 i (hup i hi') hnd]
      simp
    rw [hz]
    norm_num [Nat.odd_iff]

/-- Cyclic vertex access commutes with mirroring. -/
theorem nvtx_mirror (vs : List Pt) (i : ℕ) :
    nvtx (vs.map mirror) i = mirror (nvtx vs i) := by
  unfold nvtx
  rw [List.length_map, List.getD_eq_getElem?_getD, List.getD_eq_getElem?_getD,
    List.getElem?_map]
  cases h : vs[i % vs.length]? with
  | none => simp [mirror]
  | some v => simp

/-- The edge side function is negated by mirroring. -/
theorem crossAt_mirror (vs : List Pt) (i : ℕ) (q : Pt) :
    crossAt (vs.map mirror) i (mirror q) = -crossAt vs i q := by
  unfold crossAt cross
  rw [nvtx_mirror, nvtx_mirror]
  simp only [mirror, Prod.fst_sub, Prod.snd_sub]
  ring

/-- A CW strictly convex polygon is a mirrored CCW one. -/
theorem convexCW_mirror (vs : List Pt) : ConvexCW vs ↔ ConvexCCW (vs.map mirror) := by
  unfold ConvexCW ConvexCCW
  rw [List.length_map]
  constructor <;> intro h i hi j hj h1 h2
  · rw [nvtx_mirror, crossAt_mirror]
    have := h i hi j hj h1 h2
    linarith
  · have := h i hi j hj h1 h2
    rw [nvtx_mirror, crossAt_mirror] at this
    linarith

/-- Upward crossings are unaffected by mirroring. -/
theorem upAt_mirror (vs : List Pt) (y : ℚ) (i : ℕ) :
    upAt (vs.map mirror) y i ↔ upAt vs y i := by
  unfold upAt
  rw [nvtx_mirror, nvtx_mirror]
  exact Iff.rfl

/-- Downward crossings are unaffected by mirroring. -/
theorem downAt_mirror (vs : List Pt) (y : ℚ) (i : ℕ) :
    downAt (vs.map mirror) y i ↔ downAt vs y i := by
  unfold downAt
  rw [nvtx_mirror, nvtx_mirror]
  exact Iff.rfl

/-- The intercept of a mirrored edge is the negated intercept. -/
theorem xInter_mirror (vs : List Pt) (i : ℕ) (y : ℚ) :
    xInter (edgeI (vs.map mirror) i) y = -xInter (edgeI vs i) y := by
  unfold xInter edgeI
  rw [nvtx_mirror, nvtx_mirror]
  simp only [mirror]
  ring

/-- At most one edge of a CW strictly convex polygon crosses a height going
up. -/
theorem up_unique_cw (vs : List Pt) (y : ℚ) (hc : ConvexCW vs)
    (i j : ℕ) (hi : i < vs.length) (hj : j < vs.length)
    (hui : upAt vs y i) (huj : upAt vs y j) : i = j := by
  refine up_unique (vs.map mirror) y ((convexCW_mirror vs).mp hc) i j ?_ ?_ ?_ ?_
  · rwa [List.length_map]
  · rwa [List.length_map]
  · rwa [upAt_mirror]
  · rwa [upAt_mirror]

/-- At most one edge of a CW strictly convex polygon crosses a height going
down. -/
theorem down_unique_cw (vs : List Pt) (y : ℚ) (hc : ConvexCW vs)
    (i j : ℕ) (hi : i < vs.length) (hj : j < vs.length)
    (hui : downAt vs y i) (huj : downAt vs y j) : i = j := by
  refine down_unique (vs.map mirror) y ((convexCW_mirror vs).mp hc) i j ?_ ?_ ?_ ?_
  · rwa [List.length_map]
  · rwa [List.length_map]
  · rwa [downAt_mirror]
  · rwa [downAt_mirror]

/-- For a CW polygon the upward intercept lies left of the downward one. -/
theorem xInter_order_cw (vs : List Pt) (y : ℚ) (hc : ConvexCW vs) (u d : ℕ)
    (hu' : u < vs.length) (hd' : d < vs.length) (hu : upAt vs y u) (hd : downAt vs y d) :
    xInter (edgeI vs u) y ≤ xInter (edgeI vs d) y := by
  have h := xInter_order (vs.map mirror) y ((convexCW_mirror vs).mp hc) u d
    (by rwa [List.length_map]) (by rwa [List.length_map])
    ((upAt_mirror vs y u).mpr hu) ((downAt_mirror vs y d).mpr hd)
  rw [xInter_mirror, xInter_mirror] at h
  linarith

/-- Every point of the closed strip between the two intercepts lies weakly
right of every edge of the CW polygon. -/
theorem strip_nonpos (vs : List Pt) (y : ℚ) (hc : ConvexCW vs) (u d : ℕ)
    (hu' : u < vs.length) (hd' : d < vs.length) (hu : upAt vs y u) (hd : downAt vs y d)
    (x : ℚ) (hx0 : xInter (edgeI vs u) y ≤ x) (hx2 : x ≤ xInter (edgeI vs d) y)
    (k : ℕ) (hk : k < vs.length) : crossAt vs k (x, y) ≤ 0 := by
  have h := strip_nonneg (vs.map mirror) y ((convexCW_mirror vs).mp hc) u d
    (by rwa [List.length_map]) (by rwa [List.length_map])
    ((upAt_mirror vs y u).mpr hu) ((downAt_mirror vs y d).mpr hd) (-x)
    (by rw [xInter_mirror]; linarith) (by rw [xInter_mirror]; linarith)
    k (by rwa [List.length_map])
  have hq : ((-x : ℚ), y) = mirror (x, y) := rfl
  rw [hq, crossAt_mirror] at h
  linarith

/-- A point strictly inside every edge halfplane of a CW strictly convex
polygon has some vertex strictly below it. -/
theorem inside_has_below_cw (vs : List Pt) (hc : ConvexCW vs) (hn : 3 ≤ vs.length)
    (p : Pt) (hin : ∀ i < vs.length, crossAt vs i p < 0) :
    ∃ i < vs.length, (nvtx vs i).2 < p.2 := by
  have h := inside_has_below (vs.map mirror) ((convexCW_mirror vs).mp hc)
    (by rwa [List.length_map]) (mirror p) (by
      intro i hi
      rw [List.length_map] at hi
      rw [crossAt_mirror]
      have := hin i hi
      linarith)
  obtain ⟨i, hi, hlt⟩ := h
  rw [List.length_map] at hi
  rw [nvtx_mirror] at hlt
  exact ⟨i, hi, hlt⟩

/-- A point strictly inside every edge halfplane of a CW strictly convex
polygon has some vertex at or above it. -/
theorem inside_has_above_cw (vs : List Pt) (hc : ConvexCW vs) (hn : 3 ≤ vs.length)
    (p : Pt) (hin : ∀ i < vs.length, crossAt vs i p < 0) :
    ∃ i < vs.length, p.2 ≤ (nvtx vs i).2 := by
  have h := inside_has_above (vs.map mirror) ((convexCW_mirror vs).mp hc)
    (by rwa [List.length_map]) (mirror p) (by
      intro i hi
      rw [List.length_map] at hi
      rw [crossAt_mirror]
      have := hin i hi
      linarith)
  obtain ⟨i, hi, hle⟩ := h
  rw [List.length_map] at hi
  rw [nvtx_mirror] at hle
  exact ⟨i, hi, hle⟩

/-- Ray casting is true strictly inside a CW strictly convex polygon. -/
theorem pip_cw_inside (vs : List Pt) (hc : ConvexCW vs) (hn : 3 ≤ vs.length)
    (p : Pt) (hin : ∀ i < vs.length, crossAt vs i p < 0) :
    point_in_polygon p vs = true := by
  obtain ⟨kb, hkb, hkb'⟩ := inside_has_below_cw vs hc hn p hin
  obtain ⟨ka, hka, hka'⟩ := inside_has_above_cw vs hc hn p hin
  obtain ⟨u, hu', hu⟩ := exists_up vs p.2 kb ka hkb hka hkb' hka'
  obtain ⟨d, hd', hd⟩ := exists_down vs p.2 kb ka hkb hka hkb' hka'
  have hune : u ≠ d := up_ne_down vs p.2 u d hu hd
  rw [pip_range]
  have hsupp : ∀ i ∈ List.range vs.length,
      flipEdge p.1 p.2 (edgeI vs i) = true → i = u ∨ i = d := by
    intro i hi hfi
    have hi' : i < vs.length := List.mem_range.mp hi
    by_cases hiu : upAt vs p.2 i
    · exact Or.inl (up_unique_cw vs p.2 hc i u hi' hu' hiu hu)
    · by_cases hid : downAt vs p.2 i
      · exact Or.inr (down_unique_cw vs p.2 hc i d hi' hd' hid hd)
      · rw [flip_at_none vs p.1 p.2 i hiu hid] at hfi
        exact absurd hfi (by simp)
  have hcount := countP_support_two (List.range vs.length) (List.nodup_range _)
    (fun i => flipEdge p.1 p.2 (edgeI vs i)) u d
    (List.mem_range.mpr hu') (List.mem_range.mpr hd') hune hsupp
  simp only [] at hcount
  have hfu : flipEdge p.1 p.2 (edgeI vs u) = false := by
    rw [(flip_at_up vs p.1 p.2 u hu).1]
    apply decide_eq_false
    intro hle
    have := ((flip_at_up vs p.1 p.2 u hu).2).mpr hle
    have hneg := hin u hu'
    have : (0:ℚ) ≤ crossAt vs u p := this
    linarith
  have hfd : flipEdge p.1 p.2 (edgeI vs d) = true := by
    rw [(flip_at_down vs p.1 p.2 d hd).1, decide_eq_true_eq]
    exact ((flip_at_down vs p.1 p.2 d hd).2).mp (le_of_lt (hin d hd'))
  rw [hcount, if_neg (by simp [hfu]), if_pos hfd]
  norm_num [Nat.odd_iff]

/-- Ray casting is false strictly outside a CW strictly convex polygon. -/
theorem pip_cw_outside (vs : List Pt) (hc : ConvexCW vs) (hn : 3 ≤ vs.length)
    (p : Pt) (i0 : ℕ) (hi0 : i0 < vs.length) (hout : 0 < crossAt vs i0 p) :
    point_in_polygon p vs = false := by
  rw [pip_range]
  by_cases hup : ∃ i < vs.length, upAt vs p.2 i
  · obtain ⟨u, hu', hu⟩ := hup
    have hdown : ∃ i < vs.length, downAt vs p.2 i := by
      by_contra hno
      push_neg at hno
      have hz : ((List.range vs.length).countP fun i => decide (downAt vs p.2 i)) = 0 := by
        rw [List.countP_eq_zero]
        intro i hi
        simp only [decide_eq_true_eq]
        exact hno i (List.mem_range.mp hi)
      have hzz := range_updown vs p.2
      rw [hz] at hzz
      rw [List.countP_eq_zero] at hzz
      have := hzz u (List.mem_range.mpr hu')
      simp only [decide_eq_true_eq] at this
      exact this hu
    obtain ⟨d, hd', hd⟩ := hdown
    have hune : u ≠ d := up_ne_down vs p.2 u d hu hd
    have horder := xInter_order_cw vs p.2 hc u d hu' hd' hu hd
    have hsupp : ∀ i ∈ List.range vs.length,
        flipEdge p.1 p.2 (edgeI vs i) = true → i = u ∨ i = d := by
      intro i hi hfi
      have hi' : i < vs.length := List.mem_range.mp hi
      by_cases hiu : upAt vs p.2 i
      · exact Or.inl (up_unique_cw vs p.2 hc i u hi' hu' hiu hu)
      · by_cases hid : downAt vs p.2 i
        · exact Or.inr (down_unique_cw vs p.2 hc i d hi' hd' hid hd)
        · rw [flip_at_none vs p.1 p.2 i hiu hid] at hfi
          exact absurd hfi (by simp)
    have hcount := countP_support_two (List.range vs.length) (List.nodup_range _)
      (fun i => flipEdge p.1 p.2 (edgeI vs i)) u d
      (List.mem_range.mpr hu') (List.mem_range.mpr hd') hune hsupp
    simp only [] at hcount
    have hiff : p.1 ≤ xInter (edgeI vs d) p.2 ↔ p.1 ≤ xInter (edgeI vs u) p.2 := by
      constructor
      · intro hxd
        by_contra hxu
        push_neg at hxu
        have hnp := strip_nonpos vs p.2 hc u d hu' hd' hu hd p.1 hxu.le hxd i0 hi0
        have : crossAt vs i0 p ≤ 0 := hnp
        linarith
      · intro hxu
        exact le_trans hxu horder
    simp only [(flip_at_up vs p.1 p.2 u hu).1, (flip_at_down vs p.1 p.2 d hd).1] at hcount
    by_cases hx : p.1 ≤ xInter (edgeI vs d) p.2
    · have hx2 := hiff.mp hx
      rw [hcount, if_pos (decide_eq_true hx2), if_pos (decide_eq_true hx)]
      norm_num [Nat.odd_iff]
    · have hx2 : ¬p.1 ≤ xInter (edgeI vs u) p.2 := fun h => hx (hiff.mpr h)
      rw [hcount, if_neg (by simpa using hx2), if_neg (by simpa using hx)]
      norm_num [Nat.odd_iff]
  · push_neg at hup
    have hzu : ((List.range vs.length).countP fun i => decide (upAt vs p.2 i)) = 0 := by
      rw [List.countP_eq_zero]
      intro i hi
      simp only [decide_eq_true_eq]
      exact hup i (List.mem_range.mp hi)
    have hzd := range_updown vs p.2
    rw [hzu] at hzd
    have hzd' := List.countP_eq_zero.mp hzd.symm
    have hz : ((List.range vs.length).countP fun i => flipEdge p.1 p.2 (edgeI vs i)) = 0 := by
      rw [List.countP_eq_zero]
      intro i hi
      have hi' : i < vs.length := List.mem_range.mp hi
      have hnd : ¬downAt vs p.2 i := by
        have := hzd' i hi
        simpa using this
      rw [flip_at_none vs p.1 p.2 i (hup i hi') hnd]
      simp
    rw [hz]
    norm_num [Nat.odd_iff]

/-- C3: For every strictly convex polygon (of either orientation, with at
least three vertices) and every point strictly inside it (strictly on the
interior side of every edge), `point_in_polygon` returns `true`; for every
point strictly outside it (strictly on the exterior side of some edge),
`point_in_polygon` returns `false`. -/
theorem point_in_polygon_convex_correct (vs : List Pt) (p : Pt) (hn : 3 ≤ vs.length) :
    (ConvexCCW vs →
      ((∀ i < vs.length, 0 < crossAt vs i p) → point_in_polygon p vs = true) ∧
      ((∃ i < vs.length, crossAt vs i p < 0) → point_in_polygon p vs = false)) ∧
    (ConvexCW vs →
      ((∀ i < vs.length, crossAt vs i p < 0) → point_in_polygon p vs = true) ∧
      ((∃ i < vs.length, 0 < crossAt vs i p) → point_in_polygon p vs = false)) := by
  constructor
  · intro hc
    refine ⟨pip_ccw_inside vs hc hn p, ?_⟩
    rintro ⟨i0, hi0, h⟩
    exact pip_ccw_outside vs hc hn p i0 hi0 h
  · intro hc
    refine ⟨pip_cw_inside vs hc hn p, ?_⟩
    rintro ⟨i0, hi0, h⟩
    exact pip_cw_outside vs hc hn p i0 hi0 h

/-- The scenario square is strictly convex and counter-clockwise. -/
theorem rectPoly_convexCCW : ConvexCCW rectPoly := by
  intro i hi j hj h1 h2
  simp only [rectPoly, List.length_cons, List.length_nil] at hi hj h2
  interval_cases i <;> interval_cases j <;>
    first
      | omega
      | norm_num [crossAt, cross, nvtx, rectPoly, List.getD, Prod.sub_def]

/-- Witness for C3 on the scenario square: the centre point is reported
inside, a far point at the same height is reported outside. -/
theorem point_in_polygon_convex_correct_witness :
    point_in_polygon (103.64, 1.56) rectPoly = true ∧
      point_in_polygon (103.70, 1.56) rectPoly = false := by
  constructor
  · refine ((point_in_polygon_convex_correct rectPoly (103.64, 1.56)
      (by norm_num [rectPoly])).1 rectPoly_convexCCW).1 ?_
    intro i hi
    simp only [rectPoly, List.length_cons, List.length_nil] at hi
    interval_cases i <;>
      norm_num [crossAt, cross, nvtx, rectPoly, List.getD, Prod.sub_def]
  · refine ((point_in_polygon_convex_correct rectPoly (103.70, 1.56)
      (by norm_num [rectPoly])).1 rectPoly_convexCCW).2 ?_
    refine ⟨1, by norm_num [rectPoly], ?_⟩
    norm_num [crossAt, cross, nvtx, rectPoly, List.getD, Prod.sub_def]

end UTMMove
